import Mathlib

/-!
Shallow embedding of `src/linear_assignment.cpp` from the deep_sort_cpp
repository: `min_cost_matching`, `matching_cascade` and `gate_cost_matrix`.

Modelling conventions:
* C++ `float` values (costs, distances, thresholds) are embedded as `ℚ`.
* `Eigen::MatrixXf` is embedded as `Mat`: explicit row/column counts plus a
  total entry function (an out-of-range Eigen access is undefined behaviour
  in the C++; the total function gives those cells arbitrary-but-fixed
  values, and the safety claim is settled with a separate checked variant).
* `std::vector<int>` index lists are embedded as `List Nat` (the indices are
  positions into the track/detection collections).
* The C++ functions receive output vectors by pointer.  The normal path of
  `min_cost_matching` clears `unmatched_tracks`/`unmatched_detections` and
  (only there) `matches`, and `matching_cascade` overwrites
  `unmatched_detections` (line 157) and `unmatched_tracks` (line 187), so
  the only prior container content that is ever observable is the prior
  content of `*matches`; it is threaded through as the `matches0` argument.
* `AssignmentProblemSolver::Solve` (hungarian_alg) is not under `src/`; it
  is kept abstract as a `Solver` argument and constrained by `RawOk`,
  modelled from the spec (§4.1).
* The cost metric is a function of the two index lists; the `tracks` /
  `detections` collections it closes over are fixed for the duration of a
  call, exactly as in the C++ where they are passed through unchanged.
-/

namespace DeepSortLA

/-- A track as consumed by this core: `time_since_update_` is read by the
cascade; `mean_`/`cov_` are the opaque motion-model state handed to the
Kalman-filter query (spec §3 treats the state as opaque, so a scalar
placeholder stands in for the state vector/matrix). -/
structure Track where
  time_since_update_ : Int
  mean_ : ℚ
  cov_ : ℚ

/-- A detection: only its `(center_x, center_y, aspect_ratio, height)` box
representation (`to_xyah()` in the C++) is consumed here. -/
structure Detection where
  xyah : ℚ × ℚ × ℚ × ℚ

/-- Dense real matrix with explicit dimensions and a total entry function
(embedding of `Eigen::MatrixXf`). -/
structure Mat where
  rows : Nat
  cols : Nat
  entry : Nat → Nat → ℚ

/-- The cost-metric callback: given the track/detection index lists it
returns a cost matrix (the tracks/detections collections are captured). -/
abbrev Metric := List Nat → List Nat → Mat

/-- The assignment-solver callback: cost function, N, M ↦ assignment
vector of length N with entries `col` or `-1`. -/
abbrev Solver := (Nat → Nat → ℚ) → Nat → Nat → List Int

/-- The clamp epsilon `1e-5` from line 51. -/
def EPS : ℚ := 1 / 100000

/-- Worker for `dedupZero`: the flag records whether a `0` entry has
already been passed; every later `0` becomes `-1`. -/
def dedupZeroGo : Bool → List Int → List Int
  | _, [] => []
  | seen, x :: xs =>
    if x = 0 then (if seen then -1 else 0) :: dedupZeroGo true xs
    else x :: dedupZeroGo seen xs

/-- Lines 76-85: count the zeros of the raw assignment and overwrite every
occurrence of `0` after the first with `-1` (when there are at least two,
which is exactly when the rewrite below changes anything). -/
def dedupZero (a : List Int) : List Int := dedupZeroGo false a

/-- Line 51: every entry of the metric's matrix is clamped to at most
`max_distance + 1e-5` before the solver runs. -/
def clampedCost (metric : Metric) (max_distance : ℚ) (track_indices detection_indices : List Nat) :
    Nat → Nat → ℚ :=
  fun r c => min ((metric track_indices detection_indices).entry r c) (max_distance + EPS)

/-- Lines 55-62: the solver is run on the clamped matrix, with N and M
taken from the matrix returned by the metric itself. -/
def rawAssign (solve : Solver) (metric : Metric) (max_distance : ℚ)
    (track_indices detection_indices : List Nat) : List Int :=
  solve (clampedCost metric max_distance track_indices detection_indices)
    (metric track_indices detection_indices).rows
    (metric track_indices detection_indices).cols

/-- Lines 88-109: interpret the (zero-deduplicated) assignment row by row,
starting at row number `row`.  Returns `(matches, unmatched_tracks,
demoted unmatched_detections)` contributed by these rows, in push order.
The threshold test reads the clamped matrix, exactly as the C++ does
(line 51 overwrote `cost_matrix` before line 98 reads it). -/
def interpretRows (cl : Nat → Nat → ℚ) (max_distance : ℚ)
    (track_indices detection_indices : List Nat) :
    List Int → Nat → List (Nat × Nat) × List Nat × List Nat
  | [], _ => ([], [], [])
  | c :: rest, row =>
    let r := interpretRows cl max_distance track_indices detection_indices rest (row + 1)
    if c = -1 then (r.1, track_indices.getD row 0 :: r.2.1, r.2.2)
    else if cl row c.toNat > max_distance then
      (r.1, track_indices.getD row 0 :: r.2.1, detection_indices.getD c.toNat 0 :: r.2.2)
    else ((track_indices.getD row 0, detection_indices.getD c.toNat 0) :: r.1, r.2.1, r.2.2)

/-- Embedding of `min_cost_matching` (lines 5-110).  Result triple:
`(matches, unmatched_tracks, unmatched_detections)`.  `matches0` is the
prior content of the caller's `*matches` vector: the early return at
lines 42-47 leaves it untouched, while the normal path clears it
(line 65). -/
def min_cost_matching (solve : Solver) (metric : Metric) (max_distance : ℚ)
    (matches0 : List (Nat × Nat)) (track_indices detection_indices : List Nat) :
    List (Nat × Nat) × List Nat × List Nat :=
  if track_indices.length < 1 ∨ detection_indices.length < 1 then
    (matches0, track_indices, detection_indices)
  else
    let a := rawAssign solve metric max_distance track_indices detection_indices
    -- lines 69-74: detections whose column never occurs in the raw assignment
    let ud1 := (List.range detection_indices.length).filterMap
      (fun (i : Nat) => if (i : Int) ∈ a then none else some (detection_indices.getD i 0))
    let r := interpretRows (clampedCost metric max_distance track_indices detection_indices)
      max_distance track_indices detection_indices (dedupZero a) 0
    (r.1, r.2.1, ud1 ++ r.2.2)

/-- One iteration of the cascade's level loop (lines 158-186), acting on
the state `(matches, working track_indices, unmatched_detections)`.  The
C++ `break` when no detection is left is rendered as leaving the state
unchanged, which is equivalent because the state then never changes
again. -/
def cascadeStep (solve : Solver) (metric : Metric) (max_distance : ℚ) (tracks : List Track)
    (st : List (Nat × Nat) × List Nat × List Nat) (level : Nat) :
    List (Nat × Nat) × List Nat × List Nat :=
  if st.2.2 = [] then st
  else
    let track_indices_l := st.2.1.filter
      (fun t => (tracks.getD t ⟨0, 0, 0⟩).time_since_update_ = 1 + (level : Int))
    if track_indices_l = [] then st
    else
      let r := min_cost_matching solve metric max_distance [] track_indices_l st.2.2
      (st.1 ++ r.1, r.1.foldl (fun acc m => acc.erase m.1) st.2.1, r.2.2)

/-- Embedding of `matching_cascade` (lines 112-189).  `matches0` is the prior content
of the caller's `*matches` vector (never cleared by the C++; matches are
appended at line 179).  `unmatched_detections` is initialised to the full
detection-index list (line 157) and `unmatched_tracks` is overwritten at
the end (line 187), so their prior contents are not observable. -/
def matching_cascade (solve : Solver) (metric : Metric) (max_distance : ℚ)
    (cascade_depth : Nat) (tracks : List Track) (matches0 : List (Nat × Nat))
    (track_indices detection_indices : List Nat) :
    List (Nat × Nat) × List Nat × List Nat :=
  (List.range cascade_depth).foldl (cascadeStep solve metric max_distance tracks)
    (matches0, track_indices, detection_indices)

/-! ### The spec-modelled solver contract -/

/-- Modelled from the spec: well-formedness of the raw output of
`AssignmentProblemSolver::Solve` (hungarian_alg is not under `src/`).
Spec §4.1: the result has length N; each entry is a column or `-1`; the
matching is one-to-one apart from the degenerate duplicated-zero artifact
(so every positive column occurs at most once); and after the
first-occurrence zero correction it covers exactly `min N M` pairs. -/
def RawOk (a : List Int) (N M : Nat) : Prop :=
  a.length = N ∧
  (∀ v ∈ a, v = -1 ∨ (0 ≤ v ∧ v < (M : Int))) ∧
  (∀ c : Int, 0 < c → a.count c ≤ 1) ∧
  (dedupZero a).countP (fun v => v ≠ -1) = min N M

/-- Modelled from the spec: a solver every raw output of which is
well-formed in the sense of `RawOk`. -/
def SolverOk (solve : Solver) : Prop :=
  ∀ cost N M, RawOk (solve cost N M) N M

/-- The metric contract from spec §6: the returned matrix has exactly
`(#track indices, #detection indices)` dimensions. -/
def MetricDims (metric : Metric) : Prop :=
  ∀ ti di : List Nat, (metric ti di).rows = ti.length ∧ (metric ti di).cols = di.length

/-- A concrete well-formed solver (used to witness hypotheses): row `i` is
assigned column `i` when that column exists, `-1` otherwise.  It ignores
the costs, which none of the claims settled here require. -/
def greedySolve : Solver :=
  fun _ N M => (List.range N).map (fun i => if i < M then (i : Int) else -1)

/-- A (deliberately non-well-formed) solver that assigns nothing; used
only to exhibit that a call's output depends on the solver. -/
def allNegSolve : Solver := fun _ N _ => List.replicate N (-1)

/-! ### Gated cost matrix -/

/-- Modelled from the spec: the chi-square 95th-percentile critical
values indexed by degrees of freedom (the `chi2inv95` table is declared
outside `src/`; spec §4.3 asks for the standard 95% values). -/
def chi2inv95 : Nat → ℚ
  | 1 => 3.8415
  | 2 => 5.9915
  | 3 => 7.8147
  | 4 => 9.4877
  | 5 => 11.070
  | 6 => 12.592
  | 7 => 14.067
  | 8 => 15.507
  | 9 => 16.919
  | _ => 0

/-- The Kalman-filter gating query (`kf.gating_distance`, not under
`src/`): mean, covariance, measurement rows, `only_position` ↦ one
gating distance per measurement row.  Kept abstract. -/
abbrev KfGating := ℚ → ℚ → List (ℚ × ℚ × ℚ × ℚ) → Bool → List ℚ

/-- Overwrite one matrix cell, keeping the dimensions. -/
def matUpdate (A : Mat) (i j : Nat) (v : ℚ) : Mat :=
  { A with entry := fun r c => if r = i ∧ c = j then v else A.entry r c }

/-- Lines 235-241: the measurement matrix, one `to_xyah()` row per
detection index. -/
def measOf (detections : List Detection) (detection_indices : List Nat) :
    List (ℚ × ℚ × ℚ × ℚ) :=
  detection_indices.map (fun d => (detections.getD d ⟨(0, 0, 0, 0)⟩).xyah)

/-- Lines 249-251 for one track row `i`: columns `0 .. n-1` of the
gating-distance vector `gv`, writing `gated_cost` where the distance
exceeds the threshold. -/
def gateRowGo (B : Mat) (i : Nat) (gv : List ℚ) (thr gated_cost : ℚ) : Nat → Mat
  | 0 => B
  | j + 1 =>
    let B' := gateRowGo B i gv thr gated_cost j
    if gv.getD j 0 > thr then matUpdate B' i j gated_cost else B'

/-- Lines 244-252: the outer loop over track rows `0 .. n-1`. -/
def gateGo (kf : KfGating) (tracks : List Track) (track_indices : List Nat)
    (meas : List (ℚ × ℚ × ℚ × ℚ)) (only_position : Bool) (thr gated_cost : ℚ)
    (B : Mat) : Nat → Mat
  | 0 => B
  | i + 1 =>
    let B' := gateGo kf tracks track_indices meas only_position thr gated_cost B i
    let track := tracks.getD (track_indices.getD i 0) ⟨0, 0, 0⟩
    let gv := kf track.mean_ track.cov_ meas only_position
    gateRowGo B' i gv thr gated_cost gv.length

/-- Embedding of `gate_cost_matrix` (lines 192-254). -/
def gate_cost_matrix (kf : KfGating) (cost_matrix : Mat)
    (tracks : List Track) (detections : List Detection)
    (track_indices detection_indices : List Nat)
    (gated_cost : ℚ) (only_position : Bool) : Mat :=
  let gating_dim : Nat := if only_position then 2 else 4
  let gating_threshold := chi2inv95 gating_dim
  let meas := measOf detections detection_indices
  gateGo kf tracks track_indices meas only_position gating_threshold gated_cost
    cost_matrix track_indices.length

/-! ### Checked (bounds-verified) variant of `gate_cost_matrix`

The C++ performs no bounds checking; the checked variant returns `none`
exactly when one of the accesses the C++ makes would be out of range:
`detections[detection_indices[i]]` for every measurement row, the read
`tracks[track_indices[i]]` for every track row, and the conditional write
`cost_matrix(i, j)` (performed only when the gating distance exceeds the
threshold). -/

/-- Checked measurement construction: fails on an out-of-range detection
index. -/
def measOfChecked (detections : List Detection) : List Nat → Option (List (ℚ × ℚ × ℚ × ℚ))
  | [] => some []
  | d :: ds =>
    if d < detections.length then
      (measOfChecked detections ds).map (fun m => (detections.getD d ⟨(0, 0, 0, 0)⟩).xyah :: m)
    else none

/-- Checked inner write loop: a write to `(i, j)` must be inside the
matrix, but only cells the C++ actually writes are checked. -/
def gateRowGoChecked (B : Mat) (i : Nat) (gv : List ℚ) (thr gated_cost : ℚ) :
    Nat → Option Mat
  | 0 => some B
  | j + 1 =>
    (gateRowGoChecked B i gv thr gated_cost j).bind (fun B' =>
      if gv.getD j 0 > thr then
        if i < B'.rows ∧ j < B'.cols then some (matUpdate B' i j gated_cost) else none
      else some B')

/-- Checked outer loop: the read `tracks[track_indices[i]]` must be in
range. -/
def gateGoChecked (kf : KfGating) (tracks : List Track) (track_indices : List Nat)
    (meas : List (ℚ × ℚ × ℚ × ℚ)) (only_position : Bool) (thr gated_cost : ℚ)
    (B : Mat) : Nat → Option Mat
  | 0 => some B
  | i + 1 =>
    (gateGoChecked kf tracks track_indices meas only_position thr gated_cost B i).bind
      (fun B' =>
        if track_indices.getD i 0 < tracks.length then
          let track := tracks.getD (track_indices.getD i 0) ⟨0, 0, 0⟩
          let gv := kf track.mean_ track.cov_ meas only_position
          gateRowGoChecked B' i gv thr gated_cost gv.length
        else none)

/-- Variant of `gate_cost_matrix` with every memory access bounds-checked. -/
def gate_cost_matrix_checked (kf : KfGating) (cost_matrix : Mat)
    (tracks : List Track) (detections : List Detection)
    (track_indices detection_indices : List Nat)
    (gated_cost : ℚ) (only_position : Bool) : Option Mat :=
  let gating_dim : Nat := if only_position then 2 else 4
  let gating_threshold := chi2inv95 gating_dim
  (measOfChecked detections detection_indices).bind (fun meas =>
    gateGoChecked kf tracks track_indices meas only_position gating_threshold gated_cost
      cost_matrix track_indices.length)

/-! ### Properties of the zero-deduplication step -/

theorem dedupZeroGo_length (s : Bool) (l : List Int) :
    (dedupZeroGo s l).length = l.length := by
  induction l generalizing s with
  | nil => rfl
  | cons x xs ih => by_cases hx : x = 0 <;> simp [dedupZeroGo, hx, ih]

theorem dedupZero_length (l : List Int) : (dedupZero l).length = l.length :=
  dedupZeroGo_length false l

theorem dedupZeroGo_true_eq_map (l : List Int) :
    dedupZeroGo true l = l.map (fun x => if x = 0 then -1 else x) := by
  induction l with
  | nil => rfl
  | cons x xs ih => by_cases hx : x = 0 <;> simp [dedupZeroGo, hx, ih]

theorem count_dedupZeroGo_pos {c : Int} (hc : 0 < c) (s : Bool) (l : List Int) :
    (dedupZeroGo s l).count c = l.count c := by
  induction l generalizing s with
  | nil => rfl
  | cons x xs ih =>
    have hc1 : ¬(x = 0 ∧ (if s = true then (-1 : Int) else 0) = c) := by
      rcases s with _ | _ <;> simp <;> omega
    by_cases hx : x = 0
    · subst hx
      rcases s with _ | _ <;>
        simp_all [dedupZeroGo, List.count_cons, ih] <;> omega
    · simp [dedupZeroGo, hx, List.count_cons, ih]

theorem mem_dedupZeroGo_pos {v : Int} (hv : 0 < v) (s : Bool) (l : List Int) :
    v ∈ dedupZeroGo s l ↔ v ∈ l := by
  have h1 := count_dedupZeroGo_pos hv s l
  constructor <;> intro hm
  · have := List.count_pos_iff_mem.2 hm
    exact List.count_pos_iff_mem.1 (by omega)
  · have := List.count_pos_iff_mem.2 hm
    exact List.count_pos_iff_mem.1 (by omega)

theorem zero_not_mem_dedupZeroGo_true (l : List Int) : (0 : Int) ∉ dedupZeroGo true l := by
  rw [dedupZeroGo_true_eq_map]
  intro hm
  rcases List.mem_map.1 hm with ⟨x, _, hx⟩
  by_cases h0 : x = 0 <;> simp [h0] at hx

theorem zero_mem_dedupZero (l : List Int) : (0 : Int) ∈ dedupZero l ↔ (0 : Int) ∈ l := by
  unfold dedupZero
  induction l with
  | nil => simp [dedupZeroGo]
  | cons x xs ih => by_cases hx : x = 0 <;> simp [dedupZeroGo, hx, ih]

theorem count_zero_dedupZeroGo (s : Bool) (l : List Int) :
    (dedupZeroGo s l).count 0 ≤ 1 := by
  induction l generalizing s with
  | nil => simp [dedupZeroGo]
  | cons x xs ih =>
    by_cases hx : x = 0
    · subst hx
      have h2 := zero_not_mem_dedupZeroGo_true xs
      have h3 : (dedupZeroGo true xs).count 0 = 0 := List.count_eq_zero.2 h2
      rcases s with _ | _ <;> simp [dedupZeroGo, List.count_cons, h3]
    · have hne : ¬((0 : Int) = x) := fun hq => hx hq.symm
      simpa [dedupZeroGo, hx, List.count_cons, hne] using ih s

theorem count_zero_dedupZero (l : List Int) : (dedupZero l).count 0 ≤ 1 :=
  count_zero_dedupZeroGo false l

theorem mem_dedupZeroGo (s : Bool) (l : List Int) {v : Int} (hv : v ∈ dedupZeroGo s l) :
    v = -1 ∨ v ∈ l := by
  induction l generalizing s with
  | nil => simp [dedupZeroGo] at hv
  | cons x xs ih =>
    by_cases hx : x = 0
    · subst hx
      cases s with
      | false =>
        simp [dedupZeroGo] at hv
        rcases hv with rfl | hv
        · simp
        · rcases ih true hv with h | h
          · exact Or.inl h
          · exact Or.inr (List.mem_cons_of_mem _ h)
      | true =>
        simp [dedupZeroGo] at hv
        rcases hv with rfl | hv
        · exact Or.inl rfl
        · rcases ih true hv with h | h
          · exact Or.inl h
          · exact Or.inr (List.mem_cons_of_mem _ h)
    · simp only [dedupZeroGo, if_neg hx, List.mem_cons] at hv
      rcases hv with rfl | hv
      · exact Or.inr (List.mem_cons_self _ _)
      · rcases ih s hv with h | h
        · exact Or.inl h
        · exact Or.inr (List.mem_cons_of_mem _ h)

theorem dedupZeroGo_eq_self (l : List Int) (h : l.count 0 = 0) (s : Bool) :
    dedupZeroGo s l = l := by
  induction l generalizing s with
  | nil => rfl
  | cons x xs ih =>
    have hx : ¬ x = 0 := by
      intro h0
      subst h0
      simp [List.count_cons] at h
    simp only [List.count_cons] at h
    have hxs : xs.count 0 = 0 := by
      by_cases hq : (0 : Int) = x <;> simp [hq] at h <;> omega
    simp [dedupZeroGo, hx, ih hxs]

theorem dedupZero_eq_self {l : List Int} (h : l.count 0 ≤ 1) : dedupZero l = l := by
  unfold dedupZero
  induction l with
  | nil => rfl
  | cons x xs ih =>
    by_cases hx : x = 0
    · subst hx
      have hxs : xs.count 0 = 0 := by simp [List.count_cons] at h; omega
      simp [dedupZeroGo, dedupZeroGo_eq_self xs hxs]
    · have hxs : xs.count 0 ≤ 1 := by
        simp only [List.count_cons] at h
        by_cases hq : ((0 : Int) = x) <;> simp [hq] at h <;> omega
      simp [dedupZeroGo, hx, ih hxs]

/-! ### Properties of the row-interpretation loop -/

theorem map_getD_range : ∀ l : List Nat,
    (List.range l.length).map (fun i => l.getD i 0) = l := by
  intro l
  induction l with
  | nil => rfl
  | cons x xs ih =>
    have h1 : List.range (x :: xs).length = 0 :: (List.range xs.length).map Nat.succ := by
      simp [List.range_succ_eq_map]
    rw [h1]
    simp only [List.map_cons, List.map_map, List.getD_cons_zero]
    have h2 : ((List.range xs.length).map ((fun i => (x :: xs).getD i 0) ∘ Nat.succ))
        = (List.range xs.length).map (fun i => xs.getD i 0) := by
      apply List.map_congr_left
      intro i _
      simp [List.getD_cons_succ]
    rw [h2, ih]

theorem interpretRows_perm_tracks (cl : Nat → Nat → ℚ) (maxd : ℚ) (TI DI : List Nat) :
    ∀ (l : List Int) (k : Nat),
    List.Perm
      ((interpretRows cl maxd TI DI l k).1.map Prod.fst ++ (interpretRows cl maxd TI DI l k).2.1)
      ((List.range' k l.length).map (fun i => TI.getD i 0)) := by
  intro l
  induction l with
  | nil => intro k; simp [interpretRows]
  | cons c rest ih =>
    intro k
    have hr := ih (k + 1)
    simp only [interpretRows, List.length_cons, List.range'_succ, List.map_cons]
    by_cases hc : c = -1
    · simp only [if_pos hc]
      exact List.perm_middle.trans (hr.cons _)
    · by_cases hcl : cl k c.toNat > maxd
      · simp only [if_neg hc, if_pos hcl]
        exact List.perm_middle.trans (hr.cons _)
      · simp only [if_neg hc, if_neg hcl, List.map_cons, List.cons_append]
        exact hr.cons _

theorem interpretRows_perm_dets (cl : Nat → Nat → ℚ) (maxd : ℚ) (TI DI : List Nat) :
    ∀ (l : List Int) (k : Nat),
    List.Perm
      ((interpretRows cl maxd TI DI l k).1.map Prod.snd ++ (interpretRows cl maxd TI DI l k).2.2)
      ((l.filter (fun c => c ≠ -1)).map (fun c => DI.getD c.toNat 0)) := by
  intro l
  induction l with
  | nil => intro k; simp [interpretRows]
  | cons c rest ih =>
    intro k
    have hr := ih (k + 1)
    by_cases hc : c = -1
    · simp only [interpretRows, if_pos hc, List.filter_cons,
        show (decide (c ≠ -1)) = false by simp [hc]]
      simpa using hr
    · have hkeep : (decide (c ≠ -1)) = true := by simp [hc]
      by_cases hcl : cl k c.toNat > maxd
      · simp only [interpretRows, if_neg hc, if_pos hcl, List.filter_cons, hkeep,
          List.map_cons]
        exact List.perm_middle.trans (hr.cons _)
      · simp only [interpretRows, if_neg hc, if_neg hcl, List.filter_cons, hkeep,
          List.map_cons, List.cons_append]
        exact hr.cons _

theorem interpretRows_ut_mem (cl : Nat → Nat → ℚ) (maxd : ℚ) (TI DI : List Nat) :
    ∀ (l : List Int) (k i : Nat), i < l.length → l.getD i (-1) = -1 →
    TI.getD (k + i) 0 ∈ (interpretRows cl maxd TI DI l k).2.1 := by
  intro l
  induction l with
  | nil => intro k i hi; simp at hi
  | cons c rest ih =>
    intro k i hi hval
    cases i with
    | zero =>
      simp only [List.getD_cons_zero] at hval
      simp [interpretRows, hval]
    | succ j =>
      simp only [List.getD_cons_succ] at hval
      have hj : j < rest.length := by simp at hi; omega
      have hmem := ih (k + 1) j hj hval
      have harith : k + 1 + j = k + (j + 1) := by omega
      rw [harith] at hmem
      simp only [interpretRows]
      by_cases hc : c = -1
      · simp only [if_pos hc]
        exact List.mem_cons_of_mem _ hmem
      · by_cases hcl : cl k c.toNat > maxd
        · simp only [if_neg hc, if_pos hcl]
          exact List.mem_cons_of_mem _ hmem
        · simp only [if_neg hc, if_neg hcl]
          exact hmem

theorem interpretRows_match_shape (cl : Nat → Nat → ℚ) (maxd : ℚ) (TI DI : List Nat) :
    ∀ (l : List Int) (k : Nat) (m : Nat × Nat), m ∈ (interpretRows cl maxd TI DI l k).1 →
    ∃ i, i < l.length ∧ l.getD i (-1) ≠ -1 ∧
      m = (TI.getD (k + i) 0, DI.getD (l.getD i (-1)).toNat 0) ∧
      cl (k + i) (l.getD i (-1)).toNat ≤ maxd := by
  intro l
  induction l with
  | nil => intro k m hm; simp [interpretRows] at hm
  | cons c rest ih =>
    intro k m hm
    have step : m ∈ (interpretRows cl maxd TI DI rest (k + 1)).1 →
        ∃ i, i < (c :: rest).length ∧ (c :: rest).getD i (-1) ≠ -1 ∧
          m = (TI.getD (k + i) 0, DI.getD ((c :: rest).getD i (-1)).toNat 0) ∧
          cl (k + i) ((c :: rest).getD i (-1)).toNat ≤ maxd := by
      intro hm'
      rcases ih (k + 1) m hm' with ⟨j, hj, hne, hmeq, hcl⟩
      refine ⟨j + 1, by simp; omega, ?_, ?_, ?_⟩
      · simpa [List.getD_cons_succ] using hne
      · have harith : k + (j + 1) = k + 1 + j := by omega
        simpa [List.getD_cons_succ, harith] using hmeq
      · have harith : k + (j + 1) = k + 1 + j := by omega
        simpa [List.getD_cons_succ, harith] using hcl
    simp only [interpretRows] at hm
    by_cases hc : c = -1
    · simp only [if_pos hc] at hm
      exact step hm
    · by_cases hcl : cl k c.toNat > maxd
      · simp only [if_neg hc, if_pos hcl] at hm
        exact step hm
      · simp only [if_neg hc, if_neg hcl, List.mem_cons] at hm
        rcases hm with hm | hm
        · exact ⟨0, by simp, by simpa using hc, by simpa using hm, by simpa using not_lt.1 hcl⟩
        · exact step hm

theorem interpretRows_demote (cl : Nat → Nat → ℚ) (maxd : ℚ) (TI DI : List Nat) :
    ∀ (l : List Int) (k i : Nat), i < l.length → l.getD i (-1) ≠ -1 →
    cl (k + i) (l.getD i (-1)).toNat > maxd →
    TI.getD (k + i) 0 ∈ (interpretRows cl maxd TI DI l k).2.1 ∧
    DI.getD (l.getD i (-1)).toNat 0 ∈ (interpretRows cl maxd TI DI l k).2.2 := by
  intro l
  induction l with
  | nil => intro k i hi; simp at hi
  | cons c rest ih =>
    intro k i hi hne hbig
    cases i with
    | zero =>
      simp only [List.getD_cons_zero] at hne hbig
      have h0 : k + 0 = k := by omega
      rw [h0] at hbig ⊢
      simp [interpretRows, if_neg hne, if_pos hbig]
    | succ j =>
      simp only [List.getD_cons_succ] at hne hbig
      have hj : j < rest.length := by simp at hi; omega
      have harith : k + (j + 1) = k + 1 + j := by omega
      rw [harith] at hbig ⊢
      have hmem := ih (k + 1) j hj hne hbig
      simp only [interpretRows, List.getD_cons_succ]
      by_cases hc : c = -1
      · simp only [if_pos hc]
        exact ⟨List.mem_cons_of_mem _ hmem.1, hmem.2⟩
      · by_cases hcl : cl k c.toNat > maxd
        · simp only [if_neg hc, if_pos hcl]
          exact ⟨List.mem_cons_of_mem _ hmem.1, List.mem_cons_of_mem _ hmem.2⟩
        · simp only [if_neg hc, if_neg hcl]
          exact hmem

/-! ### The partition property of `min_cost_matching` -/

theorem min_cost_matching_early (solve : Solver) (metric : Metric) (maxd : ℚ)
    (m0 : List (Nat × Nat)) (TI DI : List Nat) (h : TI.length < 1 ∨ DI.length < 1) :
    min_cost_matching solve metric maxd m0 TI DI = (m0, TI, DI) := by
  simp only [min_cost_matching, if_pos h]

theorem min_cost_matching_pos (solve : Solver) (metric : Metric) (maxd : ℚ)
    (m0 : List (Nat × Nat)) (TI DI : List Nat) (h1 : 1 ≤ TI.length) (h2 : 1 ≤ DI.length) :
    min_cost_matching solve metric maxd m0 TI DI =
      ((interpretRows (clampedCost metric maxd TI DI) maxd TI DI
          (dedupZero (rawAssign solve metric maxd TI DI)) 0).1,
       (interpretRows (clampedCost metric maxd TI DI) maxd TI DI
          (dedupZero (rawAssign solve metric maxd TI DI)) 0).2.1,
       ((List.range DI.length).filterMap
          (fun (i : Nat) =>
            if (i : Int) ∈ rawAssign solve metric maxd TI DI then none
            else some (DI.getD i 0)))
         ++ (interpretRows (clampedCost metric maxd TI DI) maxd TI DI
          (dedupZero (rawAssign solve metric maxd TI DI)) 0).2.2) := by
  have h : ¬(TI.length < 1 ∨ DI.length < 1) := by omega
  simp only [min_cost_matching, if_neg h]

theorem filterMap_ite_none {α β : Type} (p : α → Prop) [DecidablePred p] (g : α → β)
    (l : List α) :
    l.filterMap (fun i => if p i then none else some (g i)) =
      (l.filter (fun i => decide (¬ p i))).map g := by
  induction l with
  | nil => rfl
  | cons x xs ih => by_cases hp : p x <;> simp [hp, ih]

/-- The indices assigned by the deduplicated assignment, together with the
columns missing from the raw assignment, form exactly the column range:
the multiset heart of the detection-side partition property. -/
theorem assigned_complement_perm {a : List Int} {M : Nat}
    (hvals : ∀ v ∈ a, v = -1 ∨ (0 ≤ v ∧ v < (M : Int)))
    (hcnt : ∀ c : Int, 0 < c → a.count c ≤ 1) :
    List.Perm
      ((((dedupZero a).filter (fun c => c ≠ -1)).map Int.toNat)
        ++ (List.range M).filter (fun (i : Nat) => decide (¬ (i : Int) ∈ a)))
      (List.range M) := by
  have hsplit := List.filter_append_perm (fun (i : Nat) => decide ((i : Int) ∈ a)) (List.range M)
  have hnotc : (fun (i : Nat) => !decide ((i : Int) ∈ a))
      = (fun (i : Nat) => decide (¬ (i : Int) ∈ a)) := by
    funext i
    simp [decide_not]
  rw [hnotc] at hsplit
  have hmemF : ∀ v ∈ (dedupZero a).filter (fun c => c ≠ -1), 0 ≤ v ∧ v < (M : Int) := by
    intro v hv
    rcases List.mem_filter.1 hv with ⟨hv2, hvne⟩
    have hvne' : v ≠ -1 := by simpa using hvne
    rcases mem_dedupZeroGo false a hv2 with h | h
    · exact absurd h hvne'
    · rcases hvals v h with h' | h'
      · exact absurd h' hvne'
      · exact h'
  have hcnt2 : ∀ c : Int, 0 ≤ c → (dedupZero a).count c ≤ 1 := by
    intro c hc
    rcases lt_or_eq_of_le hc with hpos | hzero
    · rw [dedupZero, count_dedupZeroGo_pos hpos]
      exact hcnt c hpos
    · rw [← hzero]
      exact count_zero_dedupZero a
  have hFnodup : ((dedupZero a).filter (fun c => c ≠ -1)).Nodup := by
    rw [List.nodup_iff_count_le_one]
    intro v
    by_cases hv : v ∈ (dedupZero a).filter (fun c => c ≠ -1)
    · have h0 : 0 ≤ v := (hmemF v hv).1
      have hvne : v ≠ -1 := by omega
      rw [List.count_filter (by simpa using hvne)]
      exact hcnt2 v h0
    · have hz := List.count_eq_zero.2 hv
      omega
  have hA1nodup : (((dedupZero a).filter (fun c => c ≠ -1)).map Int.toNat).Nodup := by
    refine List.Nodup.map_on ?_ hFnodup
    intro x hx y hy hxy
    have hx0 := (hmemF x hx).1
    have hy0 := (hmemF y hy).1
    omega
  have hfiltnodup : ((List.range M).filter (fun (i : Nat) => decide ((i : Int) ∈ a))).Nodup :=
    (List.nodup_range M).filter _
  have hmem_iff : ∀ v : Nat,
      v ∈ ((dedupZero a).filter (fun c => c ≠ -1)).map Int.toNat ↔
      v ∈ (List.range M).filter (fun (i : Nat) => decide ((i : Int) ∈ a)) := by
    intro v
    constructor
    · intro hv
      rcases List.mem_map.1 hv with ⟨c, hc, hcv⟩
      have hrange := hmemF c hc
      rcases List.mem_filter.1 hc with ⟨hc2, hcne⟩
      have hcne' : c ≠ -1 := by simpa using hcne
      have hca : c ∈ a := by
        rcases mem_dedupZeroGo false a hc2 with h | h
        · exact absurd h hcne'
        · exact h
      have hcv' : c = (v : Int) := by omega
      refine List.mem_filter.2 ⟨List.mem_range.2 ?_, by simp [← hcv', hca]⟩
      omega
    · intro hv
      rcases List.mem_filter.1 hv with ⟨hvr, hva⟩
      have hva' : (v : Int) ∈ a := by simpa using hva
      have hva2 : (v : Int) ∈ dedupZero a := by
        rcases Nat.eq_zero_or_pos v with h0 | hpos
        · subst h0
          exact (zero_mem_dedupZero a).2 (by simpa using hva')
        · exact (mem_dedupZeroGo_pos (by omega) false a).2 hva'
      refine List.mem_map.2 ⟨(v : Int), List.mem_filter.2 ⟨hva2, by simp⟩, by simp⟩
  have hA1perm : List.Perm (((dedupZero a).filter (fun c => c ≠ -1)).map Int.toNat)
      ((List.range M).filter (fun (i : Nat) => decide ((i : Int) ∈ a))) :=
    (List.perm_ext_iff_of_nodup hA1nodup hfiltnodup).2 hmem_iff
  exact (hA1perm.append_right _).trans hsplit

/-- The partition ("completeness") property of one `min_cost_matching`
call: matched plus unmatched tracks is a permutation of the input track
list, and likewise for detections. -/
theorem min_cost_matching_perm (solve : Solver) (metric : Metric) (maxd : ℚ)
    (TI DI : List Nat) (hs : SolverOk solve) (hd : MetricDims metric) :
    List.Perm ((min_cost_matching solve metric maxd [] TI DI).1.map Prod.fst
        ++ (min_cost_matching solve metric maxd [] TI DI).2.1) TI ∧
    List.Perm ((min_cost_matching solve metric maxd [] TI DI).1.map Prod.snd
        ++ (min_cost_matching solve metric maxd [] TI DI).2.2) DI := by
  by_cases hempty : TI.length < 1 ∨ DI.length < 1
  · rw [min_cost_matching_early solve metric maxd [] TI DI hempty]
    constructor <;> simp
  · have h1 : 1 ≤ TI.length := by omega
    have h2 : 1 ≤ DI.length := by omega
    rw [min_cost_matching_pos solve metric maxd [] TI DI h1 h2]
    have hw : RawOk (rawAssign solve metric maxd TI DI) TI.length DI.length := by
      unfold rawAssign
      rw [← (hd TI DI).1, ← (hd TI DI).2]
      exact hs (clampedCost metric maxd TI DI) (metric TI DI).rows (metric TI DI).cols
    have hlen : (dedupZero (rawAssign solve metric maxd TI DI)).length = TI.length := by
      rw [dedupZero_length]
      exact hw.1
    constructor
    · have hIR := interpretRows_perm_tracks (clampedCost metric maxd TI DI) maxd TI DI
        (dedupZero (rawAssign solve metric maxd TI DI)) 0
      rw [hlen, ← List.range_eq_range', map_getD_range] at hIR
      exact hIR
    · have hIR := interpretRows_perm_dets (clampedCost metric maxd TI DI) maxd TI DI
        (dedupZero (rawAssign solve metric maxd TI DI)) 0
      rw [filterMap_ite_none (fun (i : Nat) => (i : Int) ∈ rawAssign solve metric maxd TI DI)
        (fun i => DI.getD i 0) (List.range DI.length)]
      have hcore := assigned_complement_perm hw.2.1 hw.2.2.1
      have hmapped := hcore.map (fun i => DI.getD i 0)
      rw [map_getD_range] at hmapped
      have hassoc :
          List.Perm
            ((interpretRows (clampedCost metric maxd TI DI) maxd TI DI
                (dedupZero (rawAssign solve metric maxd TI DI)) 0).1.map Prod.snd ++
              (((List.range DI.length).filter
                  (fun (i : Nat) => decide (¬ (i : Int) ∈ rawAssign solve metric maxd TI DI))).map
                  (fun i => DI.getD i 0) ++
                (interpretRows (clampedCost metric maxd TI DI) maxd TI DI
                  (dedupZero (rawAssign solve metric maxd TI DI)) 0).2.2))
            ((((dedupZero (rawAssign solve metric maxd TI DI)).filter
                  (fun c => c ≠ -1)).map Int.toNat ++
                (List.range DI.length).filter
                  (fun (i : Nat) => decide (¬ (i : Int) ∈ rawAssign solve metric maxd TI DI))).map
              (fun i => DI.getD i 0)) := by
        rw [List.map_append, List.map_map]
        have hstep1 := @List.perm_append_comm Nat
          (((List.range DI.length).filter
            (fun (i : Nat) => decide (¬ (i : Int) ∈ rawAssign solve metric maxd TI DI))).map
            (fun i => DI.getD i 0))
          ((interpretRows (clampedCost metric maxd TI DI) maxd TI DI
            (dedupZero (rawAssign solve metric maxd TI DI)) 0).2.2)
        have hstep2 := ((hstep1.append_left
          ((interpretRows (clampedCost metric maxd TI DI) maxd TI DI
            (dedupZero (rawAssign solve metric maxd TI DI)) 0).1.map Prod.snd)))
        refine hstep2.trans ?_
        rw [← List.append_assoc]
        have hcomp : ((dedupZero (rawAssign solve metric maxd TI DI)).filter
            (fun c => c ≠ -1)).map ((fun i => DI.getD i 0) ∘ Int.toNat)
            = ((dedupZero (rawAssign solve metric maxd TI DI)).filter
            (fun c => c ≠ -1)).map (fun c => DI.getD c.toNat 0) := by
          simp [Function.comp]
        rw [hcomp]
        exact hIR.append_right _
      exact hassoc.trans hmapped
  done

/-! ### The partition property of `matching_cascade` -/

theorem foldl_erase_eq_diff : ∀ (ms : List (Nat × Nat)) (l : List Nat),
    ms.foldl (fun acc m => acc.erase m.1) l = l.diff (ms.map Prod.fst) := by
  intro ms
  induction ms with
  | nil => intro l; simp
  | cons m ms ih =>
    intro l
    simp only [List.foldl_cons, List.map_cons, List.diff_cons]
    exact ih (l.erase m.1)

theorem perm_append_diff (xs l : List Nat) (hnd : xs.Nodup) (hsub : xs ⊆ l) :
    List.Perm (xs ++ l.diff xs) l := by
  have hle : (xs : Multiset Nat) ≤ (l : Multiset Nat) :=
    Multiset.coe_le.2 (List.subperm_of_subset hnd hsub)
  rw [← Multiset.coe_eq_coe, ← Multiset.coe_add, ← Multiset.coe_sub]
  exact add_tsub_cancel_of_le hle

/-- A fold preserves an invariant that each step preserves. -/
theorem foldl_inv {σ α : Type} (P : σ → Prop) (f : σ → α → σ) :
    ∀ (l : List α) (s : σ), (∀ s' a, a ∈ l → P s' → P (f s' a)) → P s → P (l.foldl f s) := by
  intro l
  induction l with
  | nil => intro s _ hP; exact hP
  | cons a l ih =>
    intro s hstep hP
    exact ih (f s a) (fun s' b hb => hstep s' b (List.mem_cons_of_mem a hb))
      (hstep s a (List.mem_cons_self a l) hP)

/-- One cascade level preserves the partition invariant. -/
theorem cascadeStep_perm (solve : Solver) (metric : Metric) (maxd : ℚ) (tracks : List Track)
    (hs : SolverOk solve) (hd : MetricDims metric)
    (TI DI : List Nat) (hTI : TI.Nodup) (hDI : DI.Nodup)
    (st : List (Nat × Nat) × List Nat × List Nat) (level : Nat)
    (hinv : List.Perm (st.1.map Prod.fst ++ st.2.1) TI ∧
            List.Perm (st.1.map Prod.snd ++ st.2.2) DI) :
    List.Perm ((cascadeStep solve metric maxd tracks st level).1.map Prod.fst
        ++ (cascadeStep solve metric maxd tracks st level).2.1) TI ∧
    List.Perm ((cascadeStep solve metric maxd tracks st level).1.map Prod.snd
        ++ (cascadeStep solve metric maxd tracks st level).2.2) DI := by
  by_cases h1 : st.2.2 = []
  · simp only [cascadeStep, if_pos h1]
    exact hinv
  · by_cases h2 : st.2.1.filter
        (fun t => (tracks.getD t ⟨0, 0, 0⟩).time_since_update_ = 1 + (level : Int)) = []
    · simp only [cascadeStep, if_neg h1, if_pos h2]
      exact hinv
    · have hstep : cascadeStep solve metric maxd tracks st level =
          (st.1 ++ (min_cost_matching solve metric maxd []
              (st.2.1.filter
                (fun t => (tracks.getD t ⟨0, 0, 0⟩).time_since_update_ = 1 + (level : Int)))
              st.2.2).1,
           (min_cost_matching solve metric maxd []
              (st.2.1.filter
                (fun t => (tracks.getD t ⟨0, 0, 0⟩).time_since_update_ = 1 + (level : Int)))
              st.2.2).1.foldl (fun acc m => acc.erase m.1) st.2.1,
           (min_cost_matching solve metric maxd []
              (st.2.1.filter
                (fun t => (tracks.getD t ⟨0, 0, 0⟩).time_since_update_ = 1 + (level : Int)))
              st.2.2).2.2) := by
        simp only [cascadeStep, if_neg h1, if_neg h2]
      set TIl := st.2.1.filter
        (fun t => (tracks.getD t ⟨0, 0, 0⟩).time_since_update_ = 1 + (level : Int)) with hTIl
      set r := min_cost_matching solve metric maxd [] TIl st.2.2 with hrdef
      have hr := min_cost_matching_perm solve metric maxd TIl st.2.2 hs hd
      have hTIw_nodup : st.2.1.Nodup :=
        ((hinv.1.symm.nodup hTI).of_append_right)
      have hTIl_nodup : TIl.Nodup := hTIw_nodup.filter _
      have hxs_nodup : (r.1.map Prod.fst).Nodup :=
        (hr.1.symm.nodup hTIl_nodup).of_append_left
      have hxs_sub : (r.1.map Prod.fst) ⊆ st.2.1 := by
        intro x hx
        have hx2 : x ∈ r.1.map Prod.fst ++ r.2.1 := List.mem_append_left _ hx
        have hx3 : x ∈ TIl := hr.1.mem_iff.1 hx2
        exact List.mem_of_mem_filter hx3
      have hfold : List.Perm
          (r.1.map Prod.fst ++ r.1.foldl (fun acc m => acc.erase m.1) st.2.1) st.2.1 := by
        rw [foldl_erase_eq_diff]
        exact perm_append_diff _ _ hxs_nodup hxs_sub
      rw [hstep]
      constructor
      · have hgoal : List.Perm
            ((st.1 ++ r.1).map Prod.fst ++ r.1.foldl (fun acc m => acc.erase m.1) st.2.1)
            (st.1.map Prod.fst ++ st.2.1) := by
          rw [List.map_append, List.append_assoc]
          exact hfold.append_left _
        exact hgoal.trans hinv.1
      · have hgoal : List.Perm
            ((st.1 ++ r.1).map Prod.snd ++ r.2.2)
            (st.1.map Prod.snd ++ st.2.2) := by
          rw [List.map_append, List.append_assoc]
          exact hr.2.append_left _
        exact hgoal.trans hinv.2

/-- The partition property of the full cascade (with an empty prior
matches container). -/
theorem matching_cascade_perm (solve : Solver) (metric : Metric) (maxd : ℚ)
    (cascade_depth : Nat) (tracks : List Track) (TI DI : List Nat)
    (hs : SolverOk solve) (hd : MetricDims metric) (hTI : TI.Nodup) (hDI : DI.Nodup) :
    List.Perm ((matching_cascade solve metric maxd cascade_depth tracks [] TI DI).1.map Prod.fst
        ++ (matching_cascade solve metric maxd cascade_depth tracks [] TI DI).2.1) TI ∧
    List.Perm ((matching_cascade solve metric maxd cascade_depth tracks [] TI DI).1.map Prod.snd
        ++ (matching_cascade solve metric maxd cascade_depth tracks [] TI DI).2.2) DI := by
  unfold matching_cascade
  refine foldl_inv
    (fun st => List.Perm (st.1.map Prod.fst ++ st.2.1) TI ∧
      List.Perm (st.1.map Prod.snd ++ st.2.2) DI)
    (cascadeStep solve metric maxd tracks) (List.range cascade_depth)
    ([], TI, DI) ?_ ?_
  · intro st level _ hinv
    exact cascadeStep_perm solve metric maxd tracks hs hd TI DI hTI hDI st level hinv
  · exact ⟨by simp, by simp⟩

/-! ### The greedy witness solver is well-formed -/

theorem greedy_count (M : Nat) (c : Int) (hc : 0 ≤ c) : ∀ N : Nat,
    ((List.range N).map (fun i => if i < M then (i : Int) else -1)).count c
      = if c < (min N M : Nat) then 1 else 0 := by
  intro N
  induction N with
  | zero =>
    have h0 : ¬ (c < (0 : Int)) := by omega
    simp [h0]
  | succ n ih =>
    rw [List.range_succ, List.map_append, List.count_append]
    simp only [List.map_cons, List.map_nil]
    by_cases hnm : n < M
    · rw [if_pos hnm]
      have hmin1 : (min (n + 1) M : Nat) = (min n M : Nat) + 1 := by omega
      have hminn : (min n M : Nat) = n := by omega
      rw [ih, hmin1, hminn]
      by_cases hcn : c = (n : Int)
      · subst hcn
        simp
      · have hcnt : List.count c [(n : Int)] = 0 := by
          simp [List.count_singleton]
          omega
        rw [hcnt]
        have hlt : (c < ((n : Nat) + 1 : Nat)) ↔ (c < (n : Nat)) := by
          constructor <;> intro h <;> [omega; omega]
        by_cases hcl : c < (n : Nat)
        · rw [if_pos hcl, if_pos (by omega : c < ((n + 1 : Nat) : Int))]
        · rw [if_neg hcl, if_neg (by omega : ¬ c < ((n + 1 : Nat) : Int))]
    · rw [if_neg hnm]
      have hmin : (min (n + 1) M : Nat) = (min n M : Nat) := by omega
      have hcnt : List.count c [(-1 : Int)] = 0 := by
        simp [List.count_singleton]
        omega
      rw [ih, hmin, hcnt]
      simp

theorem greedy_countP (M : Nat) : ∀ N : Nat,
    (((List.range N).map (fun i => if i < M then (i : Int) else -1)).countP
      (fun v => v ≠ -1)) = min N M := by
  intro N
  induction N with
  | zero => simp
  | succ n ih =>
    rw [List.range_succ, List.map_append, List.countP_append]
    simp only [List.map_cons, List.map_nil]
    by_cases hnm : n < M
    · rw [if_pos hnm, ih]
      have h1 : List.countP (fun v => v ≠ -1) [(n : Int)] = 1 := by
        simp [List.countP_cons]
      rw [h1]
      omega
    · rw [if_neg hnm, ih]
      have h1 : List.countP (fun v => v ≠ -1) [(-1 : Int)] = 0 := by
        simp [List.countP_cons]
      rw [h1]
      omega

theorem greedySolve_ok : SolverOk greedySolve := by
  intro cost N M
  refine ⟨by simp [greedySolve], ?_, ?_, ?_⟩
  · intro v hv
    rcases List.mem_map.1 hv with ⟨i, hi, hfi⟩
    by_cases him : i < M
    · right
      rw [if_pos him] at hfi
      omega
    · left
      rw [if_neg him] at hfi
      omega
  · intro c hc
    rw [greedySolve, greedy_count M c (by omega) N]
    split <;> omega
  · have hz : (greedySolve cost N M).count 0 ≤ 1 := by
      rw [greedySolve, greedy_count M 0 (by omega) N]
      split <;> omega
    rw [greedySolve, dedupZero_eq_self (by rw [greedySolve] at hz; exact hz)]
    exact greedy_countP M N

/-- A concrete correctly-dimensioned metric for witnesses: every cost is 1. -/
def constMetric : Metric := fun ti di => ⟨ti.length, di.length, fun _ _ => 1⟩

theorem constMetric_dims : MetricDims constMetric := fun _ _ => ⟨rfl, rfl⟩

/-- A deliberately mis-dimensioned metric: always returns a 1×1 matrix. -/
def badMetricOneByOne : Metric := fun _ _ => ⟨1, 1, fun _ _ => 1⟩

/-! ### Claim theorems -/

/-- C1: for every call to `min_cost_matching` or `matching_cascade` with
unique (`Nodup`) index lists, a well-formed solver and a
correctly-dimensioned metric, the matched track indices together with the
unmatched tracks are a permutation of the input `track_indices` (so each
input index appears exactly once across the two outputs), and likewise
the matched detection indices together with the unmatched detections are
a permutation of `detection_indices`. -/
theorem C1_index_partition (solve : Solver) (metric : Metric) (maxd : ℚ)
    (cascade_depth : Nat) (tracks : List Track) (TI DI : List Nat)
    (hs : SolverOk solve) (hd : MetricDims metric) (hTI : TI.Nodup) (hDI : DI.Nodup) :
    (List.Perm ((min_cost_matching solve metric maxd [] TI DI).1.map Prod.fst
        ++ (min_cost_matching solve metric maxd [] TI DI).2.1) TI ∧
     List.Perm ((min_cost_matching solve metric maxd [] TI DI).1.map Prod.snd
        ++ (min_cost_matching solve metric maxd [] TI DI).2.2) DI) ∧
    (List.Perm ((matching_cascade solve metric maxd cascade_depth tracks [] TI DI).1.map Prod.fst
        ++ (matching_cascade solve metric maxd cascade_depth tracks [] TI DI).2.1) TI ∧
     List.Perm ((matching_cascade solve metric maxd cascade_depth tracks [] TI DI).1.map Prod.snd
        ++ (matching_cascade solve metric maxd cascade_depth tracks [] TI DI).2.2) DI) :=
  ⟨min_cost_matching_perm solve metric maxd TI DI hs hd,
   matching_cascade_perm solve metric maxd cascade_depth tracks TI DI hs hd hTI hDI⟩

/-- Witness for C1 at a concrete input. -/
theorem C1_index_partition_witness :
    SolverOk greedySolve ∧ MetricDims constMetric ∧
    ([0, 1] : List Nat).Nodup ∧ ([0] : List Nat).Nodup ∧
    ((List.Perm ((min_cost_matching greedySolve constMetric 5 [] [0, 1] [0]).1.map Prod.fst
        ++ (min_cost_matching greedySolve constMetric 5 [] [0, 1] [0]).2.1) [0, 1] ∧
      List.Perm ((min_cost_matching greedySolve constMetric 5 [] [0, 1] [0]).1.map Prod.snd
        ++ (min_cost_matching greedySolve constMetric 5 [] [0, 1] [0]).2.2) [0]) ∧
     (List.Perm ((matching_cascade greedySolve constMetric 5 2 [⟨1, 0, 0⟩, ⟨2, 0, 0⟩]
          [] [0, 1] [0]).1.map Prod.fst
        ++ (matching_cascade greedySolve constMetric 5 2 [⟨1, 0, 0⟩, ⟨2, 0, 0⟩]
          [] [0, 1] [0]).2.1) [0, 1] ∧
      List.Perm ((matching_cascade greedySolve constMetric 5 2 [⟨1, 0, 0⟩, ⟨2, 0, 0⟩]
          [] [0, 1] [0]).1.map Prod.snd
        ++ (matching_cascade greedySolve constMetric 5 2 [⟨1, 0, 0⟩, ⟨2, 0, 0⟩]
          [] [0, 1] [0]).2.2) [0])) :=
  ⟨greedySolve_ok, constMetric_dims, by decide, by decide,
   C1_index_partition greedySolve constMetric 5 2 [⟨1, 0, 0⟩, ⟨2, 0, 0⟩] [0, 1] [0]
     greedySolve_ok constMetric_dims (by decide) (by decide)⟩

/-! ### Cost-threshold consistency -/

theorem clamped_le_iff (metric : Metric) (maxd : ℚ) (TI DI : List Nat) (r c : Nat) :
    clampedCost metric maxd TI DI r c ≤ maxd ↔ (metric TI DI).entry r c ≤ maxd := by
  have hE : (0 : ℚ) < EPS := by norm_num [EPS]
  unfold clampedCost
  rw [min_le_iff]
  constructor
  · intro h
    rcases h with h | h
    · exact h
    · linarith
  · intro h
    exact Or.inl h

theorem clamped_gt_iff (metric : Metric) (maxd : ℚ) (TI DI : List Nat) (r c : Nat) :
    clampedCost metric maxd TI DI r c > maxd ↔ (metric TI DI).entry r c > maxd := by
  rw [gt_iff_lt, gt_iff_lt, lt_iff_not_le, lt_iff_not_le]
  exact not_congr (clamped_le_iff metric maxd TI DI r c)

/-- C2: every `Match` emitted by `min_cost_matching` comes from a cost
cell whose original (pre-clamp) metric value is at most `max_distance`;
and a row whose (deduplicated) assignment points to a column with
original cost exceeding `max_distance` is demoted, its track index
landing in `unmatched_tracks` and its detection index in
`unmatched_detections`. -/
theorem C2_no_match_above_max_distance (solve : Solver) (metric : Metric) (maxd : ℚ)
    (TI DI : List Nat) :
    (∀ m ∈ (min_cost_matching solve metric maxd [] TI DI).1,
      ∃ r c : Nat, m = (TI.getD r 0, DI.getD c 0) ∧ (metric TI DI).entry r c ≤ maxd) ∧
    (1 ≤ TI.length → 1 ≤ DI.length →
      ∀ i : Nat, i < (dedupZero (rawAssign solve metric maxd TI DI)).length →
      ∀ cc : Int, (dedupZero (rawAssign solve metric maxd TI DI)).getD i (-1) = cc →
      cc ≠ -1 → (metric TI DI).entry i cc.toNat > maxd →
      TI.getD i 0 ∈ (min_cost_matching solve metric maxd [] TI DI).2.1 ∧
      DI.getD cc.toNat 0 ∈ (min_cost_matching solve metric maxd [] TI DI).2.2) := by
  constructor
  · intro m hm
    by_cases hempty : TI.length < 1 ∨ DI.length < 1
    · rw [min_cost_matching_early solve metric maxd [] TI DI hempty] at hm
      simp at hm
    · rw [min_cost_matching_pos solve metric maxd [] TI DI (by omega) (by omega)] at hm
      rcases interpretRows_match_shape (clampedCost metric maxd TI DI) maxd TI DI
        (dedupZero (rawAssign solve metric maxd TI DI)) 0 m hm with ⟨i, _, _, hmeq, hcl⟩
      refine ⟨i, ((dedupZero (rawAssign solve metric maxd TI DI)).getD i (-1)).toNat, ?_, ?_⟩
      · simpa using hmeq
      · exact (clamped_le_iff metric maxd TI DI _ _).1 (by simpa using hcl)
  · intro h1 h2 i hi cc hcc hccne hbig
    have hclbig : clampedCost metric maxd TI DI (0 + i) cc.toNat > maxd := by
      rw [clamped_gt_iff]
      simpa using hbig
    have hdem := interpretRows_demote (clampedCost metric maxd TI DI) maxd TI DI
      (dedupZero (rawAssign solve metric maxd TI DI)) 0 i hi (by rw [hcc]; exact hccne)
      (by rw [hcc]; exact hclbig)
    rw [hcc] at hdem
    rw [min_cost_matching_pos solve metric maxd [] TI DI h1 h2]
    refine ⟨by simpa using hdem.1, List.mem_append_right _ (by simpa using hdem.2)⟩

/-- Witness for C2 at a concrete input (the match `(0, 0)` emitted with
cost 1 ≤ 5). -/
theorem C2_no_match_above_max_distance_witness :
    (0, 0) ∈ (min_cost_matching greedySolve constMetric 5 [] [0] [0]).1 ∧
    (∃ r c : Nat, ((0 : Nat), (0 : Nat)) = (([0] : List Nat).getD r 0, ([0] : List Nat).getD c 0) ∧
      (constMetric [0] [0]).entry r c ≤ 5) :=
  ⟨by with_unfolding_all decide,
   (C2_no_match_above_max_distance greedySolve constMetric 5 [0] [0]).1 (0, 0)
     (by with_unfolding_all decide)⟩

/-! ### Early return, dimension mismatch, cascade initialisation -/

/-- Every unmatched-track entry produced by the row loop is the track
index at one of the processed row positions. -/
theorem interpretRows_ut_shape (cl : Nat → Nat → ℚ) (maxd : ℚ) (TI DI : List Nat) :
    ∀ (l : List Int) (k : Nat) (x : Nat), x ∈ (interpretRows cl maxd TI DI l k).2.1 →
    ∃ i, i < l.length ∧ x = TI.getD (k + i) 0 := by
  intro l
  induction l with
  | nil => intro k x hx; simp [interpretRows] at hx
  | cons c rest ih =>
    intro k x hx
    have step : x ∈ (interpretRows cl maxd TI DI rest (k + 1)).2.1 →
        ∃ i, i < (c :: rest).length ∧ x = TI.getD (k + i) 0 := by
      intro hx'
      rcases ih (k + 1) x hx' with ⟨j, hj, hxe⟩
      refine ⟨j + 1, by simp; omega, ?_⟩
      have harith : k + (j + 1) = k + 1 + j := by omega
      rw [harith]
      exact hxe
    simp only [interpretRows] at hx
    by_cases hc : c = -1
    · simp only [if_pos hc, List.mem_cons] at hx
      rcases hx with hx | hx
      · exact ⟨0, by simp, by simpa using hx⟩
      · exact step hx
    · by_cases hcl : cl k c.toNat > maxd
      · simp only [if_neg hc, if_pos hcl, List.mem_cons] at hx
        rcases hx with hx | hx
        · exact ⟨0, by simp, by simpa using hx⟩
        · exact step hx
      · simp only [if_neg hc, if_neg hcl] at hx
        exact step hx

/-- C5 counterexample: on the early-return path `min_cost_matching` does
NOT clear the caller's matches container (the C++ `clear()` at line 65 is
only on the normal path), so with prior content `[(5, 7)]` and an empty
track-index list the returned matches list is `[(5, 7)]`, not `[]`. -/
theorem C5_counterexample :
    (min_cost_matching greedySolve constMetric 5 [(5, 7)] [] [3]).1 = [(5, 7)] ∧
    (min_cost_matching greedySolve constMetric 5 [(5, 7)] [] [3]).1 ≠ [] := by
  constructor <;> decide

/-- C5 amended: with an empty track-index list or an empty
detection-index list, `min_cost_matching` short-circuits: the result is
`(matches0, track_indices, detection_indices)` — the caller's matches
container is left untouched (hence empty whenever the caller supplies it
empty), the unmatched outputs echo the inputs in order — and the result
is independent of the solver and the metric (neither is invoked). -/
theorem C5_empty_input_short_circuit (solve solve' : Solver) (metric metric' : Metric)
    (maxd : ℚ) (m0 : List (Nat × Nat)) (TI DI : List Nat) (h : TI = [] ∨ DI = []) :
    min_cost_matching solve metric maxd m0 TI DI = (m0, TI, DI) ∧
    min_cost_matching solve metric maxd m0 TI DI
      = min_cost_matching solve' metric' maxd m0 TI DI := by
  have hlen : TI.length < 1 ∨ DI.length < 1 := by
    rcases h with h | h <;> simp [h]
  refine ⟨min_cost_matching_early solve metric maxd m0 TI DI hlen, ?_⟩
  rw [min_cost_matching_early solve metric maxd m0 TI DI hlen,
    min_cost_matching_early solve' metric' maxd m0 TI DI hlen]

/-- Witness for the amended C5 at a concrete input. -/
theorem C5_empty_input_short_circuit_witness :
    (([] : List Nat) = [] ∨ ([3] : List Nat) = []) ∧
    (min_cost_matching greedySolve constMetric 5 [] [] [3] = ([], [], [3]) ∧
     min_cost_matching greedySolve constMetric 5 [] [] [3]
       = min_cost_matching allNegSolve badMetricOneByOne 5 [] [] [3]) :=
  ⟨Or.inl rfl,
   C5_empty_input_short_circuit greedySolve allNegSolve constMetric badMetricOneByOne
     5 [] [] [3] (Or.inl rfl)⟩

/-- C7 counterexample: the metric below returns a 1×1 matrix even for two
track indices (a dimension mismatch); far from being rejected before the
solver runs, the call completes, writes outputs that depend on the
solver, and silently drops track index `1` from every output list. -/
theorem C7_counterexample :
    (badMetricOneByOne [0, 1] [0]).rows ≠ ([0, 1] : List Nat).length ∧
    min_cost_matching greedySolve badMetricOneByOne 10 [] [0, 1] [0] = ([(0, 0)], [], []) ∧
    min_cost_matching allNegSolve badMetricOneByOne 10 [] [0, 1] [0] = ([], [0], [0]) := by
  refine ⟨by decide, ?_, ?_⟩ <;> with_unfolding_all decide

/-- C7 amended: `min_cost_matching` performs no dimension check at all:
it takes N and M from the matrix the metric returned and proceeds to
invoke the solver and write the outputs; consequently, when the matrix
has fewer rows than `track_indices` has entries, every track index at a
position at or beyond the matrix's row count appears in no output at all
(neither matched nor unmatched). -/
theorem C7_no_dimension_check (solve : Solver) (metric : Metric) (maxd : ℚ)
    (TI DI : List Nat) (hs : SolverOk solve) (hTI : TI.Nodup) (h2 : 1 ≤ DI.length)
    (p : Nat) (hplow : (metric TI DI).rows ≤ p) (hphigh : p < TI.length) :
    TI.getD p 0 ∉ (min_cost_matching solve metric maxd [] TI DI).1.map Prod.fst ∧
    TI.getD p 0 ∉ (min_cost_matching solve metric maxd [] TI DI).2.1 := by
  have h1 : 1 ≤ TI.length := by omega
  rw [min_cost_matching_pos solve metric maxd [] TI DI h1 h2]
  have hlen : (dedupZero (rawAssign solve metric maxd TI DI)).length = (metric TI DI).rows := by
    rw [dedupZero_length]
    exact (hs (clampedCost metric maxd TI DI) (metric TI DI).rows (metric TI DI).cols).1
  have hne : ∀ i, i < (dedupZero (rawAssign solve metric maxd TI DI)).length →
      TI.getD i 0 ≠ TI.getD p 0 := by
    intro i hi
    have hip : i < p := by omega
    have hilen : i < TI.length := by omega
    rw [List.getD_eq_getElem TI 0 hilen, List.getD_eq_getElem TI 0 hphigh]
    rw [Ne, hTI.getElem_inj_iff]
    omega
  constructor
  · intro hmem
    rcases List.mem_map.1 hmem with ⟨m, hm, hfst⟩
    rcases interpretRows_match_shape (clampedCost metric maxd TI DI) maxd TI DI
      (dedupZero (rawAssign solve metric maxd TI DI)) 0 m hm with ⟨i, hi, _, hmeq, _⟩
    apply hne i hi
    rw [hmeq] at hfst
    simpa using hfst
  · intro hmem
    rcases interpretRows_ut_shape (clampedCost metric maxd TI DI) maxd TI DI
      (dedupZero (rawAssign solve metric maxd TI DI)) 0 _ hmem with ⟨i, hi, hxe⟩
    apply hne i hi
    simpa using hxe.symm

/-- Witness for the amended C7 at a concrete input. -/
theorem C7_no_dimension_check_witness :
    SolverOk greedySolve ∧ ([0, 1] : List Nat).Nodup ∧
    (badMetricOneByOne [0, 1] [0]).rows ≤ 1 ∧ 1 < ([0, 1] : List Nat).length ∧
    (([0, 1] : List Nat).getD 1 0
        ∉ (min_cost_matching greedySolve badMetricOneByOne 10 [] [0, 1] [0]).1.map Prod.fst ∧
     ([0, 1] : List Nat).getD 1 0
        ∉ (min_cost_matching greedySolve badMetricOneByOne 10 [] [0, 1] [0]).2.1) :=
  ⟨greedySolve_ok, by decide, by decide, by decide,
   C7_no_dimension_check greedySolve badMetricOneByOne 10 [0, 1] [0]
     greedySolve_ok (by decide) (by decide) 1 (by decide) (by decide)⟩

/-- One cascade level only appends to the matches component and never
reads it. -/
theorem cascadeStep_append (solve : Solver) (metric : Metric) (maxd : ℚ)
    (tracks : List Track) (ms0 : List (Nat × Nat))
    (st : List (Nat × Nat) × List Nat × List Nat) (level : Nat) :
    cascadeStep solve metric maxd tracks (ms0 ++ st.1, st.2) level
      = (ms0 ++ (cascadeStep solve metric maxd tracks st level).1,
         (cascadeStep solve metric maxd tracks st level).2) := by
  obtain ⟨ms, TIw, ud⟩ := st
  by_cases h1 : ud = []
  · simp only [cascadeStep, if_pos h1]
  · by_cases h2 : TIw.filter
        (fun t => (tracks.getD t ⟨0, 0, 0⟩).time_since_update_ = 1 + (level : Int)) = []
    · simp only [cascadeStep, if_neg h1, if_pos h2]
    · simp only [cascadeStep, if_neg h1, if_neg h2, List.append_assoc]

theorem cascade_foldl_append (solve : Solver) (metric : Metric) (maxd : ℚ)
    (tracks : List Track) (ms0 : List (Nat × Nat)) :
    ∀ (levels : List Nat) (st : List (Nat × Nat) × List Nat × List Nat),
    levels.foldl (cascadeStep solve metric maxd tracks) (ms0 ++ st.1, st.2)
      = (ms0 ++ (levels.foldl (cascadeStep solve metric maxd tracks) st).1,
         (levels.foldl (cascadeStep solve metric maxd tracks) st).2) := by
  intro levels
  induction levels with
  | nil => intro st; rfl
  | cons l ls ih =>
    intro st
    simp only [List.foldl_cons]
    rw [cascadeStep_append solve metric maxd tracks ms0 st l]
    exact ih (cascadeStep solve metric maxd tracks st l)

/-- C8 counterexample: `matching_cascade` never clears the caller's
matches container — with prior content `[(9, 9)]` (and a cascade level
that matches nothing) the output matches list still holds `(9, 9)`, so
the outputs are not initialised independently of prior contents. -/
theorem C8_counterexample :
    matching_cascade greedySolve constMetric 5 1 [] [(9, 9)] [] [0] = ([(9, 9)], [], [0]) ∧
    ([(9, 9)] : List (Nat × Nat)) ≠ [] := by
  constructor <;> decide

/-- C8 amended: at the start of every `matching_cascade` call
`unmatched_detections` is overwritten with the full input
detection-index list and the working track list with `track_indices`
(their prior contents are irrelevant; with `cascade_depth = 0` they are
returned as-is), but the matches output is NOT cleared: the cascade only
appends to the caller-supplied container, whose prior contents survive
as a prefix of the output. -/
theorem C8_cascade_initialisation (solve : Solver) (metric : Metric) (maxd : ℚ)
    (cascade_depth : Nat) (tracks : List Track) (m0 : List (Nat × Nat))
    (TI DI : List Nat) :
    (matching_cascade solve metric maxd cascade_depth tracks m0 TI DI).1
      = m0 ++ (matching_cascade solve metric maxd cascade_depth tracks [] TI DI).1 ∧
    (matching_cascade solve metric maxd cascade_depth tracks m0 TI DI).2
      = (matching_cascade solve metric maxd cascade_depth tracks [] TI DI).2 ∧
    matching_cascade solve metric maxd 0 tracks m0 TI DI = (m0, TI, DI) := by
  have h := cascade_foldl_append solve metric maxd tracks m0
    (List.range cascade_depth) ([], TI, DI)
  rw [List.append_nil] at h
  unfold matching_cascade
  rw [h]
  exact ⟨rfl, rfl, rfl⟩

/-! ### Cascade staging -/

/-- A well-formed raw assignment over a 1×1 cost matrix is forced to be
`[0]` (the single row takes the single column). -/
theorem rawok_singleton {a : List Int} (h : RawOk a 1 1) : a = [0] := by
  obtain ⟨hlen, hvals, _, hcov⟩ := h
  rcases a with _ | ⟨v, rest⟩
  · simp at hlen
  · rcases rest with _ | ⟨w, t⟩
    · have hv := hvals v (List.mem_cons_self v [])
      rcases hv with hv | hv
      · subst hv
        have : (dedupZero [(-1 : Int)]).countP (fun v => v ≠ -1) = 0 := by decide
        rw [this] at hcov
        simp at hcov
      · have hv0 : v = 0 := by omega
        rw [hv0]
    · simp at hlen

/-- C3: with three tracks of `time_since_update` 1, 2, 3, a single
detection equally matchable to all three (constant cost 1, threshold 10)
and any well-formed solver, the cascade matches the
`time_since_update = 1` track at level 0 and returns the other two as
unmatched tracks: level L only considers tracks with
`time_since_update = L + 1`, and the detection is consumed before the
older tracks' levels run. -/
theorem C3_cascade_staging (solve : Solver) (hs : SolverOk solve) :
    matching_cascade solve constMetric 10 3 [⟨1, 0, 0⟩, ⟨2, 0, 0⟩, ⟨3, 0, 0⟩] [] [0, 1, 2] [0]
      = ([(0, 0)], [1, 2], []) := by
  have ha : rawAssign solve constMetric 10 [0] [0] = [0] :=
    rawok_singleton (hs (clampedCost constMetric 10 [0] [0])
      (constMetric [0] [0]).rows (constMetric [0] [0]).cols)
  have hmcm : min_cost_matching solve constMetric 10 [] [0] [0] = ([(0, 0)], [], []) := by
    rw [min_cost_matching_pos solve constMetric 10 [] [0] [0] (by decide) (by decide), ha]
    with_unfolding_all decide
  have hstep0 : cascadeStep solve constMetric 10 [⟨1, 0, 0⟩, ⟨2, 0, 0⟩, ⟨3, 0, 0⟩]
      ([], [0, 1, 2], [0]) 0 = ([(0, 0)], [1, 2], []) := by
    have hTIl : ([0, 1, 2] : List Nat).filter
        (fun t => (([⟨1, 0, 0⟩, ⟨2, 0, 0⟩, ⟨3, 0, 0⟩] : List Track).getD t
          ⟨0, 0, 0⟩).time_since_update_ = 1 + ((0 : Nat) : Int)) = [0] := by decide
    simp only [cascadeStep]
    rw [if_neg (by decide : ¬ (([], [0, 1, 2], [0]) :
      List (Nat × Nat) × List Nat × List Nat).2.2 = [])]
    rw [hTIl]
    rw [if_neg (by decide : ¬ ([0] : List Nat) = [])]
    rw [hmcm]
    decide
  show List.foldl (cascadeStep solve constMetric 10 [⟨1, 0, 0⟩, ⟨2, 0, 0⟩, ⟨3, 0, 0⟩])
    ([], [0, 1, 2], [0]) (List.range 3) = ([(0, 0)], [1, 2], [])
  rw [show List.range 3 = [0, 1, 2] from rfl]
  simp only [List.foldl_cons, List.foldl_nil]
  rw [hstep0]
  rfl

/-- Witness for C3 with the concrete well-formed greedy solver. -/
theorem C3_cascade_staging_witness :
    SolverOk greedySolve ∧
    matching_cascade greedySolve constMetric 10 3
        [⟨1, 0, 0⟩, ⟨2, 0, 0⟩, ⟨3, 0, 0⟩] [] [0, 1, 2] [0]
      = ([(0, 0)], [1, 2], []) :=
  ⟨greedySolve_ok, C3_cascade_staging greedySolve greedySolve_ok⟩

/-! ### Positional characterisation of the zero dedup -/

theorem dedupZeroGo_true_getD : ∀ (l : List Int) (i : Nat),
    (dedupZeroGo true l).getD i (-1) =
      if l.getD i (-1) = 0 then -1 else l.getD i (-1) := by
  intro l
  induction l with
  | nil => intro i; simp [dedupZeroGo]
  | cons x xs ih =>
    intro i
    cases i with
    | zero =>
      by_cases hx : x = 0 <;> simp [dedupZeroGo, hx]
    | succ j =>
      by_cases hx : x = 0 <;>
        simp only [dedupZeroGo, if_pos, if_neg, hx, ite_true, ite_false,
          List.getD_cons_succ] <;> exact ih j

theorem dedupZero_getD_char : ∀ (l : List Int) (i : Nat),
    (dedupZero l).getD i (-1) =
      if l.getD i (-1) = 0 ∧ (∃ j, j < i ∧ l.getD j (-1) = 0) then -1
      else l.getD i (-1) := by
  intro l
  induction l with
  | nil => intro i; simp [dedupZero, dedupZeroGo]
  | cons x xs ih =>
    intro i
    by_cases hx : x = 0
    · subst hx
      have hunfold0 : dedupZero ((0 : Int) :: xs) = 0 :: dedupZeroGo true xs := by
        simp [dedupZero, dedupZeroGo]
      rw [hunfold0]
      cases i with
      | zero => simp
      | succ j =>
        simp only [List.getD_cons_succ]
        rw [dedupZeroGo_true_getD xs j]
        by_cases hxj : xs.getD j (-1) = 0
        · rw [if_pos hxj, if_pos ⟨hxj, 0, by omega, by simp⟩]
        · rw [if_neg hxj, if_neg (by intro hcon; exact hxj hcon.1)]
    · have hunfold : dedupZero (x :: xs) = x :: dedupZero xs := by
        simp [dedupZero, dedupZeroGo, hx]
      rw [hunfold]
      cases i with
      | zero =>
        simp only [List.getD_cons_zero]
        rw [if_neg (by rintro ⟨_, j, hj, _⟩; omega)]
      | succ j =>
        simp only [List.getD_cons_succ]
        rw [ih j]
        have hiff : (xs.getD j (-1) = 0 ∧ ∃ j', j' < j ∧ xs.getD j' (-1) = 0) ↔
            (xs.getD j (-1) = 0 ∧ ∃ j', j' < j + 1 ∧ (x :: xs).getD j' (-1) = 0) := by
          constructor
          · rintro ⟨hj0, j', hj', hj'0⟩
            exact ⟨hj0, j' + 1, by omega, by simpa [List.getD_cons_succ] using hj'0⟩
          · rintro ⟨hj0, j', hj', hj'0⟩
            cases j' with
            | zero => simp at hj'0; exact absurd hj'0 hx
            | succ j'' =>
              simp only [List.getD_cons_succ] at hj'0
              exact ⟨hj0, j'', by omega, hj'0⟩
        rw [if_congr hiff rfl rfl]

theorem count_dedupZero_nonneg {a : List Int}
    (hcnt : ∀ c : Int, 0 < c → a.count c ≤ 1) :
    ∀ c : Int, 0 ≤ c → (dedupZero a).count c ≤ 1 := by
  intro c hc
  rcases lt_or_eq_of_le hc with hpos | hzero
  · rw [dedupZero, count_dedupZeroGo_pos hpos]
    exact hcnt c hpos
  · rw [← hzero]
    exact count_zero_dedupZero a

/-- C6: inside `min_cost_matching` (non-degenerate inputs), the
deduplication step maps the raw assignment so that an entry keeps its
value unless it is a `0` preceded by an earlier `0`, in which case it
becomes `-1`; afterwards every column value occurs at most once; and
every row holding a non-first `0` ends up contributing its track index
to `unmatched_tracks`. -/
theorem C6_duplicate_zero_normalisation (solve : Solver) (metric : Metric) (maxd : ℚ)
    (TI DI : List Nat) (hs : SolverOk solve) (h1 : 1 ≤ TI.length) (h2 : 1 ≤ DI.length) :
    (∀ i : Nat, (dedupZero (rawAssign solve metric maxd TI DI)).getD i (-1) =
      if (rawAssign solve metric maxd TI DI).getD i (-1) = 0 ∧
          (∃ j, j < i ∧ (rawAssign solve metric maxd TI DI).getD j (-1) = 0)
      then -1 else (rawAssign solve metric maxd TI DI).getD i (-1)) ∧
    (∀ c : Int, 0 ≤ c → (dedupZero (rawAssign solve metric maxd TI DI)).count c ≤ 1) ∧
    (∀ i : Nat, i < (rawAssign solve metric maxd TI DI).length →
      (rawAssign solve metric maxd TI DI).getD i (-1) = 0 →
      (∃ j, j < i ∧ (rawAssign solve metric maxd TI DI).getD j (-1) = 0) →
      TI.getD i 0 ∈ (min_cost_matching solve metric maxd [] TI DI).2.1) := by
  refine ⟨dedupZero_getD_char (rawAssign solve metric maxd TI DI), ?_, ?_⟩
  · exact count_dedupZero_nonneg
      (hs (clampedCost metric maxd TI DI)
        (metric TI DI).rows (metric TI DI).cols).2.2.1
  · intro i hi hzero hearlier
    have hchar := dedupZero_getD_char (rawAssign solve metric maxd TI DI) i
    rw [if_pos ⟨hzero, hearlier⟩] at hchar
    have hlen : i < (dedupZero (rawAssign solve metric maxd TI DI)).length := by
      rw [dedupZero_length]
      exact hi
    have hmem := interpretRows_ut_mem (clampedCost metric maxd TI DI) maxd TI DI
      (dedupZero (rawAssign solve metric maxd TI DI)) 0 i hlen hchar
    rw [min_cost_matching_pos solve metric maxd [] TI DI h1 h2]
    simpa using hmem

/-- Witness for C6 at a concrete input. -/
theorem C6_duplicate_zero_normalisation_witness :
    SolverOk greedySolve ∧ 1 ≤ ([0] : List Nat).length ∧ 1 ≤ ([0] : List Nat).length ∧
    ((∀ i : Nat, (dedupZero (rawAssign greedySolve constMetric 5 [0] [0])).getD i (-1) =
      if (rawAssign greedySolve constMetric 5 [0] [0]).getD i (-1) = 0 ∧
          (∃ j, j < i ∧ (rawAssign greedySolve constMetric 5 [0] [0]).getD j (-1) = 0)
      then -1 else (rawAssign greedySolve constMetric 5 [0] [0]).getD i (-1)) ∧
    (∀ c : Int, 0 ≤ c → (dedupZero (rawAssign greedySolve constMetric 5 [0] [0])).count c ≤ 1) ∧
    (∀ i : Nat, i < (rawAssign greedySolve constMetric 5 [0] [0]).length →
      (rawAssign greedySolve constMetric 5 [0] [0]).getD i (-1) = 0 →
      (∃ j, j < i ∧ (rawAssign greedySolve constMetric 5 [0] [0]).getD j (-1) = 0) →
      ([0] : List Nat).getD i 0
        ∈ (min_cost_matching greedySolve constMetric 5 [] [0] [0]).2.1)) :=
  ⟨greedySolve_ok, by decide, by decide,
   C6_duplicate_zero_normalisation greedySolve constMetric 5 [0] [0]
     greedySolve_ok (by decide) (by decide)⟩

/-! ### Stale tracks and the cascade level window -/

/-- Every match emitted by `min_cost_matching` carries a track index
drawn from the input track-index list (well-formed solver, correct
dimensions). -/
theorem min_cost_matching_match_fst_mem (solve : Solver) (metric : Metric) (maxd : ℚ)
    (TI DI : List Nat) (hs : SolverOk solve) (hd : MetricDims metric) :
    ∀ m ∈ (min_cost_matching solve metric maxd [] TI DI).1, m.1 ∈ TI := by
  intro m hm
  by_cases hempty : TI.length < 1 ∨ DI.length < 1
  · rw [min_cost_matching_early solve metric maxd [] TI DI hempty] at hm
    simp at hm
  · rw [min_cost_matching_pos solve metric maxd [] TI DI (by omega) (by omega)] at hm
    rcases interpretRows_match_shape (clampedCost metric maxd TI DI) maxd TI DI
      (dedupZero (rawAssign solve metric maxd TI DI)) 0 m hm with ⟨i, hi, _, hmeq, _⟩
    have hlen : (dedupZero (rawAssign solve metric maxd TI DI)).length = TI.length := by
      rw [dedupZero_length]
      have hw := hs (clampedCost metric maxd TI DI) (metric TI DI).rows (metric TI DI).cols
      rw [rawAssign, hw.1, (hd TI DI).1]
    have hiTI : i < TI.length := by omega
    have : m.1 = TI.getD i 0 := by rw [hmeq]; simp
    rw [this, List.getD_eq_getElem TI 0 hiTI]
    exact List.getElem_mem hiTI

/-- An element not matched by any pair survives the erase loop. -/
theorem foldl_erase_mem (t : Nat) : ∀ (ms : List (Nat × Nat)) (l : List Nat),
    t ∈ l → (∀ m ∈ ms, m.1 ≠ t) →
    t ∈ ms.foldl (fun acc m => acc.erase m.1) l := by
  intro ms
  induction ms with
  | nil => intro l ht _; exact ht
  | cons m ms ih =>
    intro l ht hne
    simp only [List.foldl_cons]
    refine ih (l.erase m.1) ?_ (fun m' hm' => hne m' (List.mem_cons_of_mem m hm'))
    exact (List.mem_erase_of_ne (fun h => hne m (List.mem_cons_self m ms) h.symm)).2 ht

/-- C9: a track index whose `time_since_update` lies outside
`[1, cascade_depth]` is selected at no cascade level (each level `L`
filters for `time_since_update = L + 1` with `0 ≤ L < cascade_depth`),
is never matched, and is always returned among the unmatched tracks,
whatever the detections and the cost metric. -/
theorem C9_stale_track_always_unmatched (solve : Solver) (metric : Metric) (maxd : ℚ)
    (cascade_depth : Nat) (tracks : List Track) (TI DI : List Nat)
    (hs : SolverOk solve) (hd : MetricDims metric) (t : Nat) (ht : t ∈ TI)
    (htsu : (tracks.getD t ⟨0, 0, 0⟩).time_since_update_ < 1 ∨
            (tracks.getD t ⟨0, 0, 0⟩).time_since_update_ > (cascade_depth : Int)) :
    t ∈ (matching_cascade solve metric maxd cascade_depth tracks [] TI DI).2.1 ∧
    ∀ m ∈ (matching_cascade solve metric maxd cascade_depth tracks [] TI DI).1, m.1 ≠ t := by
  unfold matching_cascade
  refine foldl_inv (fun st => t ∈ st.2.1 ∧ ∀ m ∈ st.1, m.1 ≠ t)
    (cascadeStep solve metric maxd tracks) (List.range cascade_depth) ([], TI, DI)
    ?_ ⟨ht, by simp⟩
  intro st level hlevel hP
  have hlv : level < cascade_depth := List.mem_range.1 hlevel
  obtain ⟨ms, TIw, ud⟩ := st
  obtain ⟨htmem, hmnot⟩ := hP
  by_cases hud : ud = []
  · simp only [cascadeStep, if_pos hud]
    exact ⟨htmem, hmnot⟩
  · by_cases hTIl : TIw.filter
        (fun x => (tracks.getD x ⟨0, 0, 0⟩).time_since_update_ = 1 + (level : Int)) = []
    · simp only [cascadeStep, if_neg hud, if_pos hTIl]
      exact ⟨htmem, hmnot⟩
    · simp only [cascadeStep, if_neg hud, if_neg hTIl]
      have hfst := min_cost_matching_match_fst_mem solve metric maxd
        (TIw.filter (fun x => (tracks.getD x ⟨0, 0, 0⟩).time_since_update_
          = 1 + (level : Int))) ud hs hd
      have hne : ∀ m ∈ (min_cost_matching solve metric maxd []
          (TIw.filter (fun x => (tracks.getD x ⟨0, 0, 0⟩).time_since_update_
            = 1 + (level : Int))) ud).1, m.1 ≠ t := by
        intro m hm heq
        have hmem := hfst m hm
        rw [heq] at hmem
        have := (List.mem_filter.1 hmem).2
        have htl : (tracks.getD t ⟨0, 0, 0⟩).time_since_update_ = 1 + (level : Int) := by
          simpa using this
        omega
      refine ⟨?_, ?_⟩
      · exact foldl_erase_mem t _ TIw htmem hne
      · intro m hm
        rcases List.mem_append.1 hm with hm | hm
        · exact hmnot m hm
        · exact hne m hm

/-- Witness for C9: a single track with `time_since_update = 5` and
`cascade_depth = 3`. -/
theorem C9_stale_track_always_unmatched_witness :
    SolverOk greedySolve ∧ MetricDims constMetric ∧ (0 : Nat) ∈ ([0] : List Nat) ∧
    ((([⟨5, 0, 0⟩] : List Track).getD 0 ⟨0, 0, 0⟩).time_since_update_ < 1 ∨
     (([⟨5, 0, 0⟩] : List Track).getD 0 ⟨0, 0, 0⟩).time_since_update_ > (3 : Int)) ∧
    ((0 : Nat) ∈ (matching_cascade greedySolve constMetric 7 3 [⟨5, 0, 0⟩] [] [0] [0]).2.1 ∧
     ∀ m ∈ (matching_cascade greedySolve constMetric 7 3 [⟨5, 0, 0⟩] [] [0] [0]).1,
       m.1 ≠ (0 : Nat)) :=
  ⟨greedySolve_ok, constMetric_dims, by decide, by decide,
   C9_stale_track_always_unmatched greedySolve constMetric 7 3 [⟨5, 0, 0⟩] [0] [0]
     greedySolve_ok constMetric_dims 0 (by decide) (by decide)⟩

/-! ### Gated cost matrix: pointwise characterisation -/

/-- The gating-distance vector the C++ computes for track row `r`. -/
def gvecAt (kf : KfGating) (tracks : List Track) (track_indices : List Nat)
    (meas : List (ℚ × ℚ × ℚ × ℚ)) (only_position : Bool) (r : Nat) : List ℚ :=
  kf (tracks.getD (track_indices.getD r 0) ⟨0, 0, 0⟩).mean_
    (tracks.getD (track_indices.getD r 0) ⟨0, 0, 0⟩).cov_ meas only_position

theorem gateRowGo_entry (B : Mat) (i : Nat) (gv : List ℚ) (thr gc : ℚ) :
    ∀ (n r c : Nat),
    (gateRowGo B i gv thr gc n).entry r c =
      if r = i ∧ c < n ∧ gv.getD c 0 > thr then gc else B.entry r c := by
  intro n
  induction n with
  | zero =>
    intro r c
    rw [if_neg (by rintro ⟨_, h, _⟩; omega)]
    rfl
  | succ n ih =>
    intro r c
    simp only [gateRowGo]
    by_cases hg : gv.getD n 0 > thr
    · rw [if_pos hg]
      by_cases hri : r = i ∧ c = n
      · rw [show (matUpdate (gateRowGo B i gv thr gc n) i n gc).entry r c = gc by
          simp [matUpdate, hri.1, hri.2]]
        rw [if_pos ⟨hri.1, by omega, by rw [hri.2]; exact hg⟩]
      · rw [show (matUpdate (gateRowGo B i gv thr gc n) i n gc).entry r c
            = (gateRowGo B i gv thr gc n).entry r c by
          simp only [matUpdate]
          rw [if_neg (by rintro ⟨h1, h2⟩; exact hri ⟨h1, h2⟩)]]
        rw [ih r c]
        by_cases hc : r = i ∧ c < n ∧ gv.getD c 0 > thr
        · rw [if_pos hc, if_pos ⟨hc.1, by omega, hc.2.2⟩]
        · rw [if_neg hc, if_neg ?_]
          rintro ⟨h1, h2, h3⟩
          have hcn : c ≠ n := fun he => hri ⟨h1, he⟩
          exact hc ⟨h1, by omega, h3⟩
    · rw [if_neg hg, ih r c]
      by_cases hc : r = i ∧ c < n ∧ gv.getD c 0 > thr
      · rw [if_pos hc, if_pos ⟨hc.1, by omega, hc.2.2⟩]
      · rw [if_neg hc, if_neg ?_]
        rintro ⟨h1, h2, h3⟩
        have hcn : c ≠ n := fun he => hg (he ▸ h3)
        exact hc ⟨h1, by omega, h3⟩

theorem gateGo_entry (kf : KfGating) (tracks : List Track) (TI : List Nat)
    (meas : List (ℚ × ℚ × ℚ × ℚ)) (op : Bool) (thr gc : ℚ) (B : Mat) :
    ∀ (n r c : Nat),
    (gateGo kf tracks TI meas op thr gc B n).entry r c =
      if r < n ∧ c < (gvecAt kf tracks TI meas op r).length ∧
          (gvecAt kf tracks TI meas op r).getD c 0 > thr
      then gc else B.entry r c := by
  intro n
  induction n with
  | zero =>
    intro r c
    rw [if_neg (by rintro ⟨h, _, _⟩; omega)]
    rfl
  | succ n ih =>
    intro r c
    show (gateRowGo (gateGo kf tracks TI meas op thr gc B n) n
        (gvecAt kf tracks TI meas op n) thr gc
        (gvecAt kf tracks TI meas op n).length).entry r c = _
    rw [gateRowGo_entry, ih r c]
    by_cases hrn : r = n
    · subst hrn
      by_cases hc : c < (gvecAt kf tracks TI meas op r).length ∧
          (gvecAt kf tracks TI meas op r).getD c 0 > thr
      · rw [if_pos ⟨rfl, hc.1, hc.2⟩, if_pos ⟨by omega, hc.1, hc.2⟩]
      · rw [if_neg (by rintro ⟨_, h1, h2⟩; exact hc ⟨h1, h2⟩)]
        rw [if_neg (by rintro ⟨h0, _, _⟩; omega), if_neg (by rintro ⟨_, h1, h2⟩; exact hc ⟨h1, h2⟩)]
    · rw [if_neg (by rintro ⟨h, _, _⟩; exact hrn h)]
      by_cases hc : r < n ∧ c < (gvecAt kf tracks TI meas op r).length ∧
          (gvecAt kf tracks TI meas op r).getD c 0 > thr
      · rw [if_pos hc, if_pos ⟨by omega, hc.2.1, hc.2.2⟩]
      · rw [if_neg hc, if_neg ?_]
        rintro ⟨h1, h2, h3⟩
        exact hc ⟨by omega, h2, h3⟩

/-- C4: in the matrix returned by `gate_cost_matrix`, for every row `i`
over the track-index list and column `j` over the detection-index list,
the entry is `gated_cost` exactly when the gating distance at `(i, j)`
strictly exceeds the chi-squared 95% threshold for the active degrees of
freedom (2 if `only_position`, else 4); otherwise — including when the
distance equals the threshold — the entry is the untouched input cost. -/
theorem C4_gating_threshold_boundary (kf : KfGating) (A : Mat) (tracks : List Track)
    (detections : List Detection) (TI DI : List Nat) (gc : ℚ) (op : Bool)
    (hk : ∀ mean cov meas o, (kf mean cov meas o).length = meas.length) :
    ∀ i, i < TI.length → ∀ j, j < DI.length →
      (gate_cost_matrix kf A tracks detections TI DI gc op).entry i j =
        if (gvecAt kf tracks TI (measOf detections DI) op i).getD j 0
            > chi2inv95 (if op then 2 else 4)
        then gc else A.entry i j := by
  intro i hi j hj
  have hlen : (gvecAt kf tracks TI (measOf detections DI) op i).length = DI.length := by
    rw [gvecAt, hk, measOf, List.length_map]
  show (gateGo kf tracks TI (measOf detections DI) op
      (chi2inv95 (if op then 2 else 4)) gc A TI.length).entry i j = _
  rw [gateGo_entry]
  by_cases hg : (gvecAt kf tracks TI (measOf detections DI) op i).getD j 0
      > chi2inv95 (if op then 2 else 4)
  · rw [if_pos ⟨hi, by omega, hg⟩, if_pos hg]
  · rw [if_neg (by rintro ⟨_, _, h⟩; exact hg h), if_neg hg]

/-- A concrete Kalman gating function honouring the one-distance-per-
measurement contract: every distance is 0. -/
def constKf : KfGating := fun _ _ meas _ => meas.map (fun _ => 0)

theorem constKf_len : ∀ mean cov meas o, (constKf mean cov meas o).length = meas.length :=
  fun _ _ meas _ => List.length_map meas _

/-- Witness for C4 at a concrete input (distance 0, 4 degrees of
freedom, entry left unchanged). -/
theorem C4_gating_threshold_boundary_witness :
    (∀ mean cov meas o, (constKf mean cov meas o).length = meas.length) ∧
    (0 : Nat) < ([0] : List Nat).length ∧ (0 : Nat) < ([0] : List Nat).length ∧
    (gate_cost_matrix constKf ⟨1, 1, fun _ _ => 3⟩ [⟨1, 0, 0⟩] [⟨(0, 0, 0, 0)⟩]
        [0] [0] 100000 false).entry 0 0 =
      (if (gvecAt constKf [⟨1, 0, 0⟩] [0] (measOf [⟨(0, 0, 0, 0)⟩] [0]) false 0).getD 0 0
          > chi2inv95 (if false then 2 else 4)
       then 100000 else (⟨1, 1, fun _ _ => 3⟩ : Mat).entry 0 0) :=
  ⟨constKf_len, by decide, by decide,
   C4_gating_threshold_boundary constKf ⟨1, 1, fun _ _ => 3⟩ [⟨1, 0, 0⟩] [⟨(0, 0, 0, 0)⟩]
     [0] [0] 100000 false constKf_len 0 (by decide) 0 (by decide)⟩

/-! ### Bounds-checked gate: success characterisation -/

theorem gateRowGoChecked_dims (B : Mat) (i : Nat) (gv : List ℚ) (thr gc : ℚ) :
    ∀ (n : Nat) (B' : Mat), gateRowGoChecked B i gv thr gc n = some B' →
    B'.rows = B.rows ∧ B'.cols = B.cols := by
  intro n
  induction n with
  | zero =>
    intro B' h
    simp only [gateRowGoChecked, Option.some.injEq] at h
    rw [← h]
    exact ⟨rfl, rfl⟩
  | succ n ih =>
    intro B' h
    simp only [gateRowGoChecked] at h
    cases hgo : gateRowGoChecked B i gv thr gc n with
    | none => rw [hgo] at h; simp at h
    | some B'' =>
      rw [hgo] at h
      simp only [Option.some_bind] at h
      by_cases hg : gv.getD n 0 > thr
      · rw [if_pos hg] at h
        by_cases hd : i < B''.rows ∧ n < B''.cols
        · rw [if_pos hd] at h
          simp only [Option.some.injEq] at h
          rw [← h]
          exact ih B'' hgo
        · rw [if_neg hd] at h
          simp at h
      · rw [if_neg hg] at h
        simp only [Option.some.injEq] at h
        rw [← h]
        exact ih B'' hgo

theorem gateRowGoChecked_isSome (B : Mat) (i : Nat) (gv : List ℚ) (thr gc : ℚ) :
    ∀ n : Nat, (gateRowGoChecked B i gv thr gc n).isSome = true ↔
      ∀ j, j < n → gv.getD j 0 > thr → i < B.rows ∧ j < B.cols := by
  intro n
  induction n with
  | zero =>
    simp only [gateRowGoChecked, Option.isSome_some, true_iff]
    intro j hj
    omega
  | succ n ih =>
    simp only [gateRowGoChecked]
    cases hgo : gateRowGoChecked B i gv thr gc n with
    | none =>
      simp only [Option.none_bind, Option.isSome_none, Bool.false_eq_true, false_iff]
      intro hall
      rw [hgo] at ih
      simp only [Option.isSome_none, Bool.false_eq_true, false_iff] at ih
      exact ih (fun j hj => hall j (by omega))
    | some B'' =>
      rw [hgo] at ih
      simp only [Option.isSome_some, true_iff] at ih
      have hdims := gateRowGoChecked_dims B i gv thr gc n B'' hgo
      simp only [Option.some_bind]
      by_cases hg : gv.getD n 0 > thr
      · rw [if_pos hg]
        by_cases hd : i < B''.rows ∧ n < B''.cols
        · rw [if_pos hd]
          simp only [Option.isSome_some, true_iff]
          intro j hj hgj
          by_cases hjn : j = n
          · subst hjn
            omega
          · exact ih j (by omega) hgj
        · rw [if_neg hd]
          simp only [Option.isSome_none, Bool.false_eq_true, false_iff]
          intro hall
          have := hall n (by omega) hg
          omega
      · rw [if_neg hg]
        simp only [Option.isSome_some, true_iff]
        intro j hj hgj
        by_cases hjn : j = n
        · subst hjn
          exact absurd hgj hg
        · exact ih j (by omega) hgj

theorem gateGoChecked_dims (kf : KfGating) (tracks : List Track) (TI : List Nat)
    (meas : List (ℚ × ℚ × ℚ × ℚ)) (op : Bool) (thr gc : ℚ) (B : Mat) :
    ∀ (n : Nat) (B' : Mat), gateGoChecked kf tracks TI meas op thr gc B n = some B' →
    B'.rows = B.rows ∧ B'.cols = B.cols := by
  intro n
  induction n with
  | zero =>
    intro B' h
    simp only [gateGoChecked, Option.some.injEq] at h
    rw [← h]
    exact ⟨rfl, rfl⟩
  | succ n ih =>
    intro B' h
    simp only [gateGoChecked] at h
    cases hgo : gateGoChecked kf tracks TI meas op thr gc B n with
    | none => rw [hgo] at h; simp at h
    | some B'' =>
      rw [hgo] at h
      simp only [Option.some_bind] at h
      by_cases ht : TI.getD n 0 < tracks.length
      · rw [if_pos ht] at h
        have h2 := gateRowGoChecked_dims B'' n _ thr gc _ B' h
        have h3 := ih B'' hgo
        exact ⟨h2.1.trans h3.1, h2.2.trans h3.2⟩
      · rw [if_neg ht] at h
        simp at h

theorem gateGoChecked_isSome (kf : KfGating) (tracks : List Track) (TI : List Nat)
    (meas : List (ℚ × ℚ × ℚ × ℚ)) (op : Bool) (thr gc : ℚ) (B : Mat) :
    ∀ n : Nat, (gateGoChecked kf tracks TI meas op thr gc B n).isSome = true ↔
      ∀ i, i < n → TI.getD i 0 < tracks.length ∧
        (∀ j, j < (gvecAt kf tracks TI meas op i).length →
          (gvecAt kf tracks TI meas op i).getD j 0 > thr → i < B.rows ∧ j < B.cols) := by
  intro n
  induction n with
  | zero =>
    simp only [gateGoChecked, Option.isSome_some, true_iff]
    intro i hi
    omega
  | succ n ih =>
    simp only [gateGoChecked]
    cases hgo : gateGoChecked kf tracks TI meas op thr gc B n with
    | none =>
      simp only [Option.none_bind, Option.isSome_none, Bool.false_eq_true, false_iff]
      intro hall
      rw [hgo] at ih
      simp only [Option.isSome_none, Bool.false_eq_true, false_iff] at ih
      exact ih (fun i hi => hall i (by omega))
    | some B'' =>
      rw [hgo] at ih
      simp only [Option.isSome_some, true_iff] at ih
      have hdims := gateGoChecked_dims kf tracks TI meas op thr gc B n B'' hgo
      simp only [Option.some_bind]
      by_cases ht : TI.getD n 0 < tracks.length
      · rw [if_pos ht]
        rw [show (gateRowGoChecked B'' n
            (kf (tracks.getD (TI.getD n 0) ⟨0, 0, 0⟩).mean_
              (tracks.getD (TI.getD n 0) ⟨0, 0, 0⟩).cov_ meas op) thr gc
            (kf (tracks.getD (TI.getD n 0) ⟨0, 0, 0⟩).mean_
              (tracks.getD (TI.getD n 0) ⟨0, 0, 0⟩).cov_ meas op).length).isSome = true ↔
            ∀ j, j < (gvecAt kf tracks TI meas op n).length →
              (gvecAt kf tracks TI meas op n).getD j 0 > thr → n < B''.rows ∧ j < B''.cols
          from gateRowGoChecked_isSome B'' n _ thr gc _]
        constructor
        · intro hrow i hi
          by_cases hin : i = n
          · subst hin
            refine ⟨ht, fun j hj hgj => ?_⟩
            have := hrow j hj hgj
            omega
          · exact ih i (by omega)
        · intro hall
          intro j hj hgj
          have := (hall n (by omega)).2 j hj hgj
          omega
      · rw [if_neg ht]
        simp only [Option.isSome_none, Bool.false_eq_true, false_iff]
        intro hall
        exact ht (hall n (by omega)).1

theorem measOfChecked_isSome (detections : List Detection) :
    ∀ DI : List Nat, (measOfChecked detections DI).isSome = true ↔
      ∀ d ∈ DI, d < detections.length := by
  intro DI
  induction DI with
  | nil =>
    constructor
    · intro _ d hd
      simp at hd
    · intro _
      rfl
  | cons d ds ih =>
    simp only [measOfChecked]
    by_cases hd : d < detections.length
    · rw [if_pos hd]
      simp only [Option.isSome_map']
      rw [ih]
      constructor
      · intro h x hx
        rcases List.mem_cons.1 hx with rfl | hx
        · exact hd
        · exact h x hx
      · intro h x hx
        exact h x (List.mem_cons_of_mem d hx)
    · rw [if_neg hd]
      simp only [Option.isSome_none, Bool.false_eq_true, false_iff]
      intro h
      exact hd (h d (List.mem_cons_self d ds))

theorem measOfChecked_eq (detections : List Detection) :
    ∀ (DI : List Nat) (m : List (ℚ × ℚ × ℚ × ℚ)),
    measOfChecked detections DI = some m → m = measOf detections DI := by
  intro DI
  induction DI with
  | nil =>
    intro m h
    simp only [measOfChecked, Option.some.injEq] at h
    rw [← h]
    rfl
  | cons d ds ih =>
    intro m h
    simp only [measOfChecked] at h
    by_cases hd : d < detections.length
    · rw [if_pos hd] at h
      cases hrest : measOfChecked detections ds with
      | none => rw [hrest] at h; simp at h
      | some m' =>
        rw [hrest] at h
        simp only [Option.map_some', Option.some.injEq] at h
        rw [← h, ih m' hrest]
        rfl
    · rw [if_neg hd] at h
      simp at h

/-- C10 counterexample: valid track/detection indices, a 0×0 cost
matrix, and gating distances all below the threshold — every access
the code performs is in bounds (the checked run succeeds) even though
the claimed precondition `rows ≥ |track_indices|` fails, because the
matrix write at `(i, j)` only happens when the distance exceeds the
threshold. -/
theorem C10_counterexample :
    (gate_cost_matrix_checked constKf ⟨0, 0, fun _ _ => 0⟩ [⟨1, 0, 0⟩] [⟨(0, 0, 0, 0)⟩]
        [0] [0] 100000 false).isSome = true ∧
    ¬ (([0] : List Nat).length ≤ (Mat.mk 0 0 (fun _ _ => 0)).rows) := by
  refine ⟨by with_unfolding_all decide, by decide⟩

/-- C10 amended: the bounds-checked run of `gate_cost_matrix` succeeds
exactly when every detection index is a valid position in `detections`,
every track index read (positions `0 .. |track_indices|-1`) is a valid
position in `tracks`, and for every cell the code actually writes —
i.e. every `(i, j)` whose gating distance strictly exceeds the
chi-squared threshold — `i` is within the matrix's rows and `j` within
its columns.  The original precondition (matrix at least
`|track_indices| × |detection_indices|`) is sufficient but not
necessary, since the writes are conditional. -/
theorem C10_gate_access_bounds (kf : KfGating) (A : Mat) (tracks : List Track)
    (detections : List Detection) (TI DI : List Nat) (gc : ℚ) (op : Bool) :
    (gate_cost_matrix_checked kf A tracks detections TI DI gc op).isSome = true ↔
      ((∀ d ∈ DI, d < detections.length) ∧
       ∀ i, i < TI.length → TI.getD i 0 < tracks.length ∧
         (∀ j, j < (gvecAt kf tracks TI (measOf detections DI) op i).length →
           (gvecAt kf tracks TI (measOf detections DI) op i).getD j 0
             > chi2inv95 (if op then 2 else 4) → i < A.rows ∧ j < A.cols)) := by
  unfold gate_cost_matrix_checked
  cases hmc : measOfChecked detections DI with
  | none =>
    simp only [Option.none_bind, Option.isSome_none, Bool.false_eq_true, false_iff]
    intro hall
    have := (measOfChecked_isSome detections DI).2 hall.1
    rw [hmc] at this
    simp at this
  | some m =>
    rw [measOfChecked_eq detections DI m hmc]
    simp only [Option.some_bind]
    rw [gateGoChecked_isSome kf tracks TI (measOf detections DI) op
      (chi2inv95 (if op then 2 else 4)) gc A TI.length]
    have hmem : ∀ d ∈ DI, d < detections.length := by
      apply (measOfChecked_isSome detections DI).1
      rw [hmc]
      rfl
    constructor
    · intro h
      exact ⟨hmem, h⟩
    · intro h
      exact h.2

end DeepSortLA
